import Mathlib

/-!
Verification of the Winch code-generation context
(`winch/codegen/src/codegen/context.rs`).

The operand stack is embedded as a `List Val` whose HEAD is the stack TOP
(the Rust `Stack` wraps a `Vec` whose last element is the top; reversing the
orientation keeps push/pop structural).  The register allocator, frame and
macro-assembler are collaborators that are not part of the excerpt, so they
are modelled from the spec (sections 4.1, 4.2 and 6); every operation of
`CodeGenContext` itself is translated directly from `context.rs`.
Fatal failures (`panic!`, `unwrap`, `assert!`, `unreachable!`, failed
`debug_assert`) are represented by `Option` results being `none`.
-/

namespace Winch

/-- Register classes, from `isa/reg.rs` (`RegClass::Int` / `RegClass::Float`). -/
inductive RegClass where
  | Int : RegClass
  | Float : RegClass
deriving DecidableEq, Repr

/-- A machine register: its class together with a hardware index.
Modelled from the spec: registers are partitioned by capability class and
allocated independently per class (spec section 2 and glossary). -/
structure Reg where
  cls : RegClass
  idx : Nat
deriving DecidableEq, Repr

/-- The WebAssembly numeric types handled by this core.  Reference and
vector types are rejected (`unimplemented!`) by every operation modelled
here, so they are omitted from the embedding. -/
inductive WasmType where
  | I32 : WasmType
  | I64 : WasmType
  | F32 : WasmType
  | F64 : WasmType
deriving DecidableEq, Repr

/-- Byte size of a value of the given type (`OperandSize` in the source). -/
def WasmType.size : WasmType → Nat
  | .I32 => 4
  | .F32 => 4
  | .I64 => 8
  | .F64 => 8

/-- Register class used for a value of the given type
(`CodeGenContext::reg_for_type`). -/
def WasmType.cls : WasmType → RegClass
  | .I32 => .Int
  | .I64 => .Int
  | .F32 => .Float
  | .F64 => .Float

/-- Operand sizes, from `masm.rs` (`OperandSize::S32`/`S64`). -/
inductive OperandSize where
  | S32 : OperandSize
  | S64 : OperandSize
deriving DecidableEq, Repr

/-- The operand size corresponding to a type (`impl From<WasmType> for OperandSize`). -/
def WasmType.opSize : WasmType → OperandSize
  | .I32 => .S32
  | .F32 => .S32
  | .I64 => .S64
  | .F64 => .S64

/-- Integer type of a given operand size, used by emission helpers that tag
their result register (`TypedReg::i32` / `TypedReg::i64`). -/
def OperandSize.intTy : OperandSize → WasmType
  | .S32 => .I32
  | .S64 => .I64

/-- A register tagged with the type of the value it holds (`stack.rs`, `TypedReg`). -/
structure TypedReg where
  ty : WasmType
  reg : Reg
deriving DecidableEq, Repr

/-- A slot on the physical machine stack: its SP-relative offset (the
stack-pointer offset reported by the assembler just after the slot was
pushed) and its size in bytes (`masm.rs`, `StackSlot`). -/
structure StackSlot where
  offset : Nat
  size : Nat
deriving DecidableEq, Repr

/-- An abstract operand-stack entry (`stack.rs`, `Val`): register-resident,
immediate constant (floats carried as raw bit patterns), reference to a
local, or spilled memory slot. -/
inductive Val where
  | Reg : TypedReg → Val
  | I32 : Int → Val
  | I64 : Int → Val
  | F32 : Nat → Val
  | F64 : Nat → Val
  | Local : WasmType → Nat → Val
  | Memory : WasmType → StackSlot → Val
deriving DecidableEq, Repr

/-- The type of a stack entry (`Val::ty`). -/
def Val.ty : Val → WasmType
  | .Reg tr => tr.ty
  | .I32 _ => .I32
  | .I64 _ => .I64
  | .F32 _ => .F32
  | .F64 _ => .F64
  | .Local t _ => t
  | .Memory t _ => t

/-- `Val::is_reg`. -/
def Val.isReg : Val → Bool
  | .Reg _ => true
  | _ => false

/-- `Val::is_local`. -/
def Val.isLocalRef : Val → Bool
  | .Local _ _ => true
  | _ => false

/-- `Val::is_mem`. -/
def Val.isMem : Val → Bool
  | .Memory _ _ => true
  | _ => false

/-- A register-or-immediate operand (`masm.rs`, `RegImm`). -/
inductive RegImm where
  | reg : Reg → RegImm
  | imm : Int → RegImm
deriving DecidableEq, Repr

/-- Instructions recorded by the modelled assembler, one per capability of
the interface in spec section 6. -/
inductive Inst where
  | push : Reg → Nat → Inst
  | pop : Reg → Nat → Inst
  | movRR : Reg → Reg → Nat → Inst
  | movI : Int → Reg → Nat → Inst
  | loadLocal : Nat → Reg → Nat → Inst
  | loadSP : Nat → Reg → Nat → Inst
  | binArith : Reg → RegImm → Nat → Inst
  | ensureSp : Nat → Inst
  | jmp : Nat → Inst
deriving DecidableEq, Repr

/-- Association-list lookup for register contents (default 0). -/
def lookupReg : List (Reg × Int) → Reg → Int
  | [], _ => 0
  | (k, v) :: rest, r => if k = r then v else lookupReg rest r

/-- Association-list lookup for memory contents keyed by offset (default 0). -/
def lookupNat : List (Nat × Int) → Nat → Int
  | [], _ => 0
  | (k, v) :: rest, n => if k = n then v else lookupNat rest n

/-- Modelled from the spec: the abstract assembler of section 6 (the
`MacroAssembler` trait, which is not part of the excerpt).  It tracks the
current stack-pointer offset, register contents, stack and local memory,
and the trace of emitted instructions. -/
structure Masm where
  sp : Nat
  regs : List (Reg × Int)
  stackMem : List (Nat × Int)
  localMem : List (Nat × Int)
  trace : List Inst
deriving DecidableEq, Repr

/-- Current contents of register `r`. -/
def Masm.getReg (m : Masm) (r : Reg) : Int := lookupReg m.regs r

/-- Modelled from the spec: `push_to_stack(register, size) -> slot` — grows
the stack by `sz` bytes, stores the register there, and returns a slot whose
recorded offset is the stack-pointer offset right after the push. -/
def Masm.pushToStack (m : Masm) (r : Reg) (sz : Nat) : StackSlot × Masm :=
  let sp' := m.sp + sz
  (⟨sp', sz⟩,
   { m with sp := sp',
            stackMem := (sp', m.getReg r) :: m.stackMem,
            trace := m.trace ++ [.push r sz] })

/-- Modelled from the spec: `pop_from_stack(register, size)` — loads the
value at the current stack-pointer offset into `r` and shrinks the stack. -/
def Masm.popFromStack (m : Masm) (r : Reg) (sz : Nat) : Masm :=
  { m with regs := (r, lookupNat m.stackMem m.sp) :: m.regs,
           sp := m.sp - sz,
           trace := m.trace ++ [.pop r sz] }

/-- Modelled from the spec: register-to-register move. -/
def Masm.movRR (m : Masm) (src dst : Reg) (sz : Nat) : Masm :=
  { m with regs := (dst, m.getReg src) :: m.regs, trace := m.trace ++ [.movRR src dst sz] }

/-- Modelled from the spec: move an immediate into a register. -/
def Masm.movI (m : Masm) (v : Int) (dst : Reg) (sz : Nat) : Masm :=
  { m with regs := (dst, v) :: m.regs, trace := m.trace ++ [.movI v dst sz] }

/-- Modelled from the spec: load a local-variable slot into a register. -/
def Masm.loadLocal (m : Masm) (off : Nat) (dst : Reg) (sz : Nat) : Masm :=
  { m with regs := (dst, lookupNat m.localMem off) :: m.regs,
           trace := m.trace ++ [.loadLocal off dst sz] }

/-- Modelled from the spec: load a stack-pointer-relative address into a register. -/
def Masm.loadSP (m : Masm) (off : Nat) (dst : Reg) (sz : Nat) : Masm :=
  { m with regs := (dst, lookupNat m.stackMem off) :: m.regs,
           trace := m.trace ++ [.loadSP off dst sz] }

/-- Modelled from the spec: `ensure_sp_for_jump` adjusts the physical stack
pointer to exactly match the destination's target offset (spec section 4.3,
jump balancing). -/
def Masm.ensureSpForJump (m : Masm) (target : Nat) : Masm :=
  { m with sp := target, trace := m.trace ++ [.ensureSp target] }

/-- Modelled from the spec: emit a jump to the given label. -/
def Masm.emitJmp (m : Masm) (lbl : Nat) : Masm :=
  { m with trace := m.trace ++ [.jmp lbl] }

/-- Modelled from the spec: the ABI scratch registers
(`scratch_register` / `scratch_register_for(type)`, spec section 6); they are
reserved by the calling convention and never handed out by the allocator. -/
def scratchFor (ty : WasmType) : Reg :=
  match ty.cls with
  | .Int => ⟨.Int, 1000⟩
  | .Float => ⟨.Float, 1000⟩

/-- A local-variable slot of the current frame (`frame.rs`, `LocalSlot`):
its type and frame-relative offset. -/
structure LocalSlot where
  ty : WasmType
  offset : Nat
deriving DecidableEq, Repr

/-- Modelled from the spec: the current function's frame, a mapping from
local index to its slot (spec section 3; `frame.rs` is not in the excerpt). -/
structure Frame where
  locals : List LocalSlot
deriving DecidableEq, Repr

/-- `Frame::get_local`. -/
def Frame.getLocal (f : Frame) (i : Nat) : Option LocalSlot := f.locals[i]?

/-- Modelled from the spec: the register allocator's state, the set of
currently free registers (spec section 4.1); a register is busy iff it is
not in `free`. -/
structure RegAlloc where
  free : List Reg
deriving DecidableEq, Repr

/-- `RegAlloc` availability query (no side effects). -/
def RegAlloc.available (ra : RegAlloc) (r : Reg) : Bool := r ∈ ra.free

/-- Modelled from the spec: `free(register)` marks a register free
(idempotent, as calling it on an already-free register is a safety net). -/
def RegAlloc.freeReg (ra : RegAlloc) (r : Reg) : RegAlloc :=
  if r ∈ ra.free then ra else ⟨r :: ra.free⟩

/-- Remove a register from the free set (it becomes busy). -/
def RegAlloc.take (ra : RegAlloc) (r : Reg) : RegAlloc := ⟨ra.free.erase r⟩

/-- The code generation context (`CodeGenContext`): register allocator,
value stack, frame and reachability state.  The builtin-function table and
`VMOffsets` reference are irrelevant to every operation modelled here and
are omitted. -/
structure CodeGenContext where
  regalloc : RegAlloc
  stack : List Val
  frame : Frame
  reachable : Bool
deriving DecidableEq, Repr

namespace CodeGenContext

/-- `CodeGenContext::new`: fresh context, reachability initialized to `true`. -/
def new (regalloc : RegAlloc) (stack : List Val) (frame : Frame) : CodeGenContext :=
  { regalloc := regalloc, stack := stack, frame := frame, reachable := true }

end CodeGenContext

/-- `CodeGenContext::spill_impl`, iterating over the operand stack
bottom-to-top (the recursion first processes the part of the list below the
top).  Register-resident entries are pushed to the physical stack, their
register freed, and replaced by memory entries; local references are loaded
into the scratch register, pushed, and replaced by memory entries;
immediates and memory entries are untouched. -/
def spillList (fr : Frame) : List Val → RegAlloc → Masm → Option (List Val × RegAlloc × Masm)
  | [], ra, m => some ([], ra, m)
  | .Reg tr :: rest, ra, m =>
    (spillList fr rest ra m).map fun t =>
      let pm := t.2.2.pushToStack tr.reg tr.ty.size
      (.Memory tr.ty pm.1 :: t.1, t.2.1.freeReg tr.reg, pm.2)
  | .Local _ idx :: rest, ra, m =>
    match fr.getLocal idx with
    | none => none
    | some lslot =>
      (spillList fr rest ra m).map fun t =>
        let m2 := t.2.2.loadLocal lslot.offset (scratchFor lslot.ty) lslot.ty.size
        let pm := m2.pushToStack (scratchFor lslot.ty) lslot.ty.size
        (.Memory lslot.ty pm.1 :: t.1, t.2.1, pm.2)
  | v :: rest, ra, m =>
    (spillList fr rest ra m).map fun t => (v :: t.1, t.2.1, t.2.2)

namespace CodeGenContext

/-- `CodeGenContext::spill` (and the allocator-triggered spill callback). -/
def spill (c : CodeGenContext) (m : Masm) : Option (CodeGenContext × Masm) :=
  match spillList c.frame c.stack c.regalloc m with
  | none => none
  | some (s, ra, m') => some ({ c with stack := s, regalloc := ra }, m')

/-- `CodeGenContext::reg`: request a specific register.  Modelled from the
spec: `allocate_specific` takes the register if free, otherwise triggers the
spill protocol and retries; failing fatally if it is still busy
(spec section 4.1). -/
def reg (c : CodeGenContext) (m : Masm) (r : Reg) :
    Option (Reg × CodeGenContext × Masm) :=
  if r ∈ c.regalloc.free then
    some (r, { c with regalloc := c.regalloc.take r }, m)
  else
    match c.spill m with
    | none => none
    | some (c1, m1) =>
      if r ∈ c1.regalloc.free then
        some (r, { c1 with regalloc := c1.regalloc.take r }, m1)
      else none

/-- `CodeGenContext::reg_for_class`.  Modelled from the spec:
`allocate(class)` returns a free register of the class, spilling and
retrying when none is free, failing fatally if the spill produced none
(spec section 4.1). -/
def regForClass (c : CodeGenContext) (m : Masm) (cls : RegClass) :
    Option (Reg × CodeGenContext × Masm) :=
  match c.regalloc.free.find? (fun x => decide (x.cls = cls)) with
  | some r => some (r, { c with regalloc := c.regalloc.take r }, m)
  | none =>
    match c.spill m with
    | none => none
    | some (c1, m1) =>
      match c1.regalloc.free.find? (fun x => decide (x.cls = cls)) with
      | some r => some (r, { c1 with regalloc := c1.regalloc.take r }, m1)
      | none => none

/-- `CodeGenContext::reg_for_type`. -/
def regForType (c : CodeGenContext) (m : Masm) (ty : WasmType) :
    Option (Reg × CodeGenContext × Masm) :=
  c.regForClass m ty.cls

/-- `CodeGenContext::free_reg`. -/
def freeReg (c : CodeGenContext) (r : Reg) : CodeGenContext :=
  { c with regalloc := c.regalloc.freeReg r }

end CodeGenContext

/-- Modelled from the spec: `Stack::pop_reg` — succeeds only when the top
entry is already register-resident (spec section 4.2). -/
def stackPopReg : List Val → Option (TypedReg × List Val)
  | .Reg tr :: rest => some (tr, rest)
  | _ => none

/-- Modelled from the spec: `Stack::pop_named_reg` — succeeds only when the
top entry is register-resident in exactly the requested register. -/
def stackPopNamedReg (named : Reg) : List Val → Option (TypedReg × List Val)
  | .Reg tr :: rest => if tr.reg = named then some (tr, rest) else none
  | _ => none

namespace CodeGenContext

/-- `CodeGenContext::move_val_to_reg`: emit the move/load materializing a
stack value into `dst`.  Fails only on a local reference whose index is
invalid (source `panic!`). -/
def moveValToReg (c : CodeGenContext) (v : Val) (dst : Reg) (m : Masm) : Option Masm :=
  match v with
  | .Reg tr => some (m.movRR tr.reg dst tr.ty.size)
  | .I32 n => some (m.movI n dst 4)
  | .I64 n => some (m.movI n dst 8)
  | .F32 b => some (m.movI (b : Int) dst 4)
  | .F64 b => some (m.movI (b : Int) dst 8)
  | .Local _ idx =>
    match c.frame.getLocal idx with
    | none => none
    | some slot => some (m.loadLocal slot.offset dst slot.ty.size)
  | .Memory ty slot => some (m.loadSP slot.offset dst ty.size)

/-- The register-acquisition step of the slow path of `pop_to_reg`:
`self.reg(r, masm)` when a named register was requested, otherwise
`self.reg_for_type(val.ty(), masm)`. -/
def allocFor (c : CodeGenContext) (m : Masm) (named : Option Reg) (ty : WasmType) :
    Option (Reg × CodeGenContext × Masm) :=
  match named with
  | some rr => c.reg m rr
  | none => c.regForType m ty

/-- `CodeGenContext::pop_to_reg`: pop the stack top into a register (a
specific one when `named` is given).  Fast path reuses a register-resident
top; slow path pops the value, allocates a register (possibly spilling),
and materializes: memory entries are popped from the physical stack after
the consistency check that their recorded offset equals the assembler's
current stack-pointer offset, other values are moved/loaded, freeing a
register-resident source. -/
def popToReg (c : CodeGenContext) (m : Masm) (named : Option Reg) :
    Option (TypedReg × CodeGenContext × Masm) :=
  let fast := match named with
    | some d => stackPopNamedReg d c.stack
    | none => stackPopReg c.stack
  match fast with
  | some (tr, s') => some (tr, { c with stack := s' }, m)
  | none =>
    match c.stack with
    | [] => none
    | val :: rest =>
      let c0 : CodeGenContext := { c with stack := rest }
      match c0.allocFor m named val.ty with
      | none => none
      | some (r, c1, m1) =>
        match val with
        | .Memory ty slot =>
          if slot.offset = m1.sp then
            some (⟨ty, r⟩, c1, m1.popFromStack r ty.size)
          else none
        | v =>
          match c1.moveValToReg v r m1 with
          | none => none
          | some m2 =>
            let c2 := match v with
              | .Reg tr => c1.freeReg tr.reg
              | _ => c1
            some (⟨v.ty, r⟩, c2, m2)

/-- `CodeGenContext::unop`. -/
def unop (c : CodeGenContext) (m : Masm) (sz : OperandSize)
    (emit : Masm → Reg → OperandSize → TypedReg × Masm) :
    Option (CodeGenContext × Masm) :=
  match c.popToReg m none with
  | none => none
  | some (tr, c1, m1) =>
    let em := emit m1 tr.reg sz
    some ({ c1 with stack := .Reg em.1 :: c1.stack }, em.2)

/-- `CodeGenContext::binop`: pop `src` (top) and `dst`, emit, free `src`'s
register, push the result. -/
def binop (c : CodeGenContext) (m : Masm) (sz : OperandSize)
    (emit : Masm → Reg → Reg → OperandSize → TypedReg × Masm) :
    Option (CodeGenContext × Masm) :=
  match c.popToReg m none with
  | none => none
  | some (src, c1, m1) =>
    match c1.popToReg m1 none with
    | none => none
    | some (dst0, c2, m2) =>
      let em := emit m2 dst0.reg src.reg sz
      let c3 := c2.freeReg src.reg
      some ({ c3 with stack := .Reg em.1 :: c3.stack }, em.2)

/-- `CodeGenContext::i32_binop`: if the stack top is an i32 constant, pop it
(`Stack::pop_i32_const`, modelled from the spec's `pop_constant_if`) and
emit the immediate-operand form; otherwise fall back to the general
register-register path. -/
def i32binop (c : CodeGenContext) (m : Masm)
    (emit : Masm → Reg → RegImm → OperandSize → TypedReg × Masm) :
    Option (CodeGenContext × Masm) :=
  match c.stack with
  | .I32 v :: rest =>
    let c0 : CodeGenContext := { c with stack := rest }
    match c0.popToReg m none with
    | none => none
    | some (tr, c1, m1) =>
      let em := emit m1 tr.reg (.imm v) .S32
      some ({ c1 with stack := .Reg em.1 :: c1.stack }, em.2)
  | _ :: _ =>
    c.binop m .S32 (fun mm d s szz => emit mm d (.reg s) szz)
  | [] => none

/-- `CodeGenContext::i64_binop`: i64 analogue of `i32binop`. -/
def i64binop (c : CodeGenContext) (m : Masm)
    (emit : Masm → Reg → RegImm → OperandSize → TypedReg × Masm) :
    Option (CodeGenContext × Masm) :=
  match c.stack with
  | .I64 v :: rest =>
    let c0 : CodeGenContext := { c with stack := rest }
    match c0.popToReg m none with
    | none => none
    | some (tr, c1, m1) =>
      let em := emit m1 tr.reg (.imm v) .S64
      some ({ c1 with stack := .Reg em.1 :: c1.stack }, em.2)
  | _ :: _ =>
    c.binop m .S64 (fun mm d s szz => emit mm d (.reg s) szz)
  | [] => none

/-- `CodeGenContext::drop_last`: drop the top `n` entries, invoking the
callback on each in top-to-bottom order before truncating.  Fails when
`n` exceeds the stack length (source `assert!`). -/
def dropLastOp (c : CodeGenContext) (n : Nat) (f : RegAlloc → Val → RegAlloc) :
    Option CodeGenContext :=
  if n = 0 then some c
  else if n ≤ c.stack.length then
    some { c with stack := c.stack.drop n,
                  regalloc := (c.stack.take n).foldl f c.regalloc }
  else none

end CodeGenContext

/-- The register-freeing callback used by `truncate_stack_to`: free the
register of every discarded register-resident entry. -/
def freeVal (ra : RegAlloc) (v : Val) : RegAlloc :=
  match v with
  | .Reg tr => ra.freeReg tr.reg
  | _ => ra

namespace CodeGenContext

/-- `CodeGenContext::truncate_stack_to`. -/
def truncateStackTo (c : CodeGenContext) (target : Nat) : Option CodeGenContext :=
  if target < c.stack.length then
    c.dropLastOp (c.stack.length - target) freeVal
  else some c

end CodeGenContext

/-- Per-block control-flow bookkeeping consumed by `unconditional_jump`
(`ControlStackFrame` is outside the excerpt).  Modelled from the spec: it
carries the base stack-pointer offset recorded on entry, the target offset a
branch must establish, the realized-jump-target mark, and the branch label. -/
structure ControlStackFrame where
  baseOffset : Nat
  targetOffset : Nat
  isTarget : Bool
  label : Nat
deriving DecidableEq, Repr

namespace CodeGenContext

/-- `CodeGenContext::unconditional_jump`: assert the current stack-pointer
offset is at least the destination's base offset, run the finalization
callback, snap the stack pointer to the destination's target offset, mark
the destination as a jump target, emit the jump, and clear reachability.
The operand stack is deliberately not truncated. -/
def unconditionalJump (c : CodeGenContext) (dest : ControlStackFrame) (m : Masm)
    (f : Masm → CodeGenContext → ControlStackFrame →
         Masm × CodeGenContext × ControlStackFrame) :
    Option (CodeGenContext × Masm × ControlStackFrame) :=
  let target := dest.targetOffset
  let base := dest.baseOffset
  if base ≤ m.sp then
    let r1 := f m c dest
    let m2 := r1.1.ensureSpForJump target
    let d2 : ControlStackFrame := { r1.2.2 with isTarget := true }
    let m3 := m2.emitJmp d2.label
    some ({ r1.2.1 with reachable := false }, m3, d2)
  else none

end CodeGenContext

/-- An ABI result operand (`abi.rs`, `ABIOperand`): register-assigned or
stack-assigned with its ABI offset and size. -/
inductive ABIOperand where
  | reg : Reg → WasmType → ABIOperand
  | stack : WasmType → Nat → Nat → ABIOperand
deriving DecidableEq, Repr

/-- `ABIOperand::is_stack`-style discriminator. -/
def ABIOperand.isStack : ABIOperand → Bool
  | .stack _ _ _ => true
  | _ => false

/-- The ABI description of a call's results (`abi.rs`, `ABIResults`). -/
structure ABIResults where
  operands : List ABIOperand
deriving DecidableEq, Repr

/-- Modelled from the spec: `ABIResults::on_stack` — whether any result is
stack-assigned. -/
def ABIResults.onStack (rs : ABIResults) : Bool := rs.operands.any ABIOperand.isStack

/-- The return area for stack-assigned results (`abi.rs`, `RetArea`): an
SP-relative base, or a callee-side slot (which `push_abi_results` treats as
unreachable). -/
inductive RetArea where
  | sp : Nat → RetArea
  | slot : Nat → RetArea
deriving DecidableEq, Repr

namespace CodeGenContext

/-- The operand loop of `push_abi_results`: register-assigned results claim
their exact register (asserted available) and are pushed register-resident;
stack-assigned results are pushed as memory entries at
`return_area_offset - operand_offset`; a missing or non-SP return area for a
stack-assigned result is fatal. -/
def pushAbiGo : List ABIOperand → CodeGenContext → Masm → Option RetArea →
    Option (CodeGenContext × Masm)
  | [], c, m, _ => some (c, m)
  | .reg r ty :: rest, c, m, area =>
    if c.regalloc.available r then
      match c.reg m r with
      | none => none
      | some (r', c1, m1) =>
        pushAbiGo rest { c1 with stack := .Reg ⟨ty, r'⟩ :: c1.stack } m1 area
    else none
  | .stack ty off sz :: rest, c, m, area =>
    match area with
    | some (.sp spOff) =>
      pushAbiGo rest { c with stack := .Memory ty ⟨spOff - off, sz⟩ :: c.stack } m area
    | some (.slot _) => none
    | none => none

/-- `CodeGenContext::push_abi_results`: when any result is stack-assigned,
the caller-supplied callback must produce the return area (its absence is
fatal); then every result operand is pushed. -/
def pushAbiResults (c : CodeGenContext) (results : ABIResults) (m : Masm)
    (calcRet : ABIResults → CodeGenContext → Masm →
            Option RetArea × CodeGenContext × Masm) :
    Option (CodeGenContext × Masm) :=
  if results.onStack then
    let r1 := calcRet results c m
    match r1.1 with
    | none => none
    | some ra => pushAbiGo results.operands r1.2.1 r1.2.2 (some ra)
  else
    pushAbiGo results.operands c m none

/-- The allocation loop of `CodeGenContext::without`. -/
def allocAll : List Reg → CodeGenContext → Masm → Option (CodeGenContext × Masm)
  | [], c, m => some (c, m)
  | r :: rest, c, m =>
    match c.reg m r with
    | none => none
    | some (_, c1, m1) => allocAll rest c1 m1

/-- `CodeGenContext::without`: allocate every listed register, run the
callback, free every listed register, and return the callback's result. -/
def without {T : Type} (c : CodeGenContext) (regs : List Reg) (m : Masm)
    (f : CodeGenContext → Masm → T × CodeGenContext × Masm) :
    Option (T × CodeGenContext × Masm) :=
  match allocAll regs c m with
  | none => none
  | some (c1, m1) =>
    let r := f c1 m1
    some (r.1, regs.foldl CodeGenContext.freeReg r.2.1, r.2.2)

end CodeGenContext

end Winch

namespace Winch

/-- The registers referenced by the register-resident entries of an operand
stack, in stack order. -/
def stackRegs (s : List Val) : List Reg :=
  s.filterMap (fun v => match v with | .Reg tr => some tr.reg | _ => none)

/-- Register exclusivity (spec sections 3, 5 and 8): the allocator's free
list is duplicate-free, no two live register-resident stack entries
reference the same register, and every register referenced by a live entry
is busy (not in the allocator's free set). -/
def Inv (c : CodeGenContext) : Prop :=
  c.regalloc.free.Nodup ∧ (stackRegs c.stack).Nodup ∧
    ∀ r ∈ stackRegs c.stack, r ∉ c.regalloc.free

instance (c : CodeGenContext) : Decidable (Inv c) := by
  unfold Inv; infer_instance

/-- Denotation of a stack entry: the numeric value it currently stands for,
read from the machine state (registers, stack memory, locals). -/
def denoteVal (fr : Frame) (m : Masm) : Val → Int
  | .Reg tr => m.getReg tr.reg
  | .I32 v => v
  | .I64 v => v
  | .F32 b => (b : Int)
  | .F64 b => (b : Int)
  | .Local _ idx =>
    match fr.getLocal idx with
    | some slot => lookupNat m.localMem slot.offset
    | none => 0
  | .Memory _ slot => lookupNat m.stackMem slot.offset

/-- The emission callback of an integer binary instruction whose value
semantics is `f`: the destination register receives `f dst src`, where the
source operand is an immediate or the current contents of a register; the
result register is the destination, tagged with the integer type of the
operand size. -/
def arithEmitRI (f : Int → Int → Int) (m : Masm) (dst : Reg) (src : RegImm)
    (sz : OperandSize) : TypedReg × Masm :=
  let sv := match src with
    | .reg r => m.getReg r
    | .imm n => n
  (⟨sz.intTy, dst⟩,
   { m with regs := (dst, f (m.getReg dst) sv) :: m.regs,
            trace := m.trace ++ [.binArith dst src (match sz with | .S32 => 4 | .S64 => 8)] })

/-- One step of the code-generation context: each constructor is one
operation of `CodeGenContext` (successful, per its `Option` result).  The
emission callbacks of the operation helpers are arbitrary except that they
return the destination register they were handed, which every emission
helper in the source does. -/
inductive Step : CodeGenContext × Masm → CodeGenContext × Masm → Prop where
  | pushVal (c : CodeGenContext) (m : Masm) (v : Val) (hv : v.isReg = false) :
      Step (c, m) ({ c with stack := v :: c.stack }, m)
  | pushAlloc (c c1 : CodeGenContext) (m m1 : Masm) (cls : RegClass)
      (ty : WasmType) (r : Reg)
      (h : c.regForClass m cls = some (r, c1, m1)) :
      Step (c, m) ({ c1 with stack := .Reg ⟨ty, r⟩ :: c1.stack }, m1)
  | allocNamed (c c1 : CodeGenContext) (m m1 : Masm) (r r' : Reg)
      (h : c.reg m r = some (r', c1, m1)) : Step (c, m) (c1, m1)
  | allocClass (c c1 : CodeGenContext) (m m1 : Masm) (cls : RegClass) (r : Reg)
      (h : c.regForClass m cls = some (r, c1, m1)) : Step (c, m) (c1, m1)
  | popReg (c c1 : CodeGenContext) (m m1 : Masm) (named : Option Reg) (tr : TypedReg)
      (h : c.popToReg m named = some (tr, c1, m1)) : Step (c, m) (c1, m1)
  | unopStep (c c1 : CodeGenContext) (m m1 : Masm) (sz : OperandSize)
      (emit : Masm → Reg → OperandSize → TypedReg × Masm)
      (hemit : ∀ mm r szz, (emit mm r szz).1.reg = r)
      (h : c.unop m sz emit = some (c1, m1)) : Step (c, m) (c1, m1)
  | binopStep (c c1 : CodeGenContext) (m m1 : Masm) (sz : OperandSize)
      (emit : Masm → Reg → Reg → OperandSize → TypedReg × Masm)
      (hemit : ∀ mm d s szz, (emit mm d s szz).1.reg = d)
      (h : c.binop m sz emit = some (c1, m1)) : Step (c, m) (c1, m1)
  | i32binopStep (c c1 : CodeGenContext) (m m1 : Masm)
      (emit : Masm → Reg → RegImm → OperandSize → TypedReg × Masm)
      (hemit : ∀ mm d s szz, (emit mm d s szz).1.reg = d)
      (h : c.i32binop m emit = some (c1, m1)) : Step (c, m) (c1, m1)
  | i64binopStep (c c1 : CodeGenContext) (m m1 : Masm)
      (emit : Masm → Reg → RegImm → OperandSize → TypedReg × Masm)
      (hemit : ∀ mm d s szz, (emit mm d s szz).1.reg = d)
      (h : c.i64binop m emit = some (c1, m1)) : Step (c, m) (c1, m1)
  | spillStep (c c1 : CodeGenContext) (m m1 : Masm)
      (h : c.spill m = some (c1, m1)) : Step (c, m) (c1, m1)
  | dropStep (c c1 : CodeGenContext) (m : Masm) (n : Nat)
      (h : c.dropLastOp n freeVal = some c1) : Step (c, m) (c1, m)
  | truncStep (c c1 : CodeGenContext) (m : Masm) (tgt : Nat)
      (h : c.truncateStackTo tgt = some c1) : Step (c, m) (c1, m)
  | pushAbiStep (c c1 : CodeGenContext) (m m1 : Masm) (results : ABIResults)
      (calcRet : ABIResults → CodeGenContext → Masm →
                 Option RetArea × CodeGenContext × Masm)
      (hcalc : ∀ c' m', Inv c' → Inv (calcRet results c' m').2.1)
      (h : c.pushAbiResults results m calcRet = some (c1, m1)) :
      Step (c, m) (c1, m1)

/-- Physical bytes contributed by one stack entry during a spill. -/
def spSizeF (fr : Frame) : Val → Nat
  | .Reg tr => tr.ty.size
  | .Local _ idx =>
    match fr.getLocal idx with
    | some slot => slot.ty.size
    | none => 0
  | _ => 0

/-- Total physical bytes a spill of the given stack pushes. -/
def sumSp (fr : Frame) (s : List Val) : Nat := (s.map (spSizeF fr)).sum

end Winch

namespace Winch

@[simp]
lemma RegAlloc.mem_freeReg (ra : RegAlloc) (r x : Reg) :
    x ∈ (ra.freeReg r).free ↔ x = r ∨ x ∈ ra.free := by
  unfold RegAlloc.freeReg
  split
  · constructor
    · exact fun h => Or.inr h
    · rintro (rfl | h) <;> [assumption; assumption]
  · simp [List.mem_cons]

lemma RegAlloc.nodup_freeReg (ra : RegAlloc) (r : Reg) (h : ra.free.Nodup) :
    (ra.freeReg r).free.Nodup := by
  unfold RegAlloc.freeReg
  split
  · exact h
  · exact List.Nodup.cons (by assumption) h

lemma RegAlloc.mem_take (ra : RegAlloc) (r x : Reg) (h : x ∈ (ra.take r).free) :
    x ∈ ra.free :=
  List.erase_subset r ra.free h

lemma RegAlloc.not_mem_take_self (ra : RegAlloc) (r : Reg) (h : ra.free.Nodup) :
    r ∉ (ra.take r).free :=
  h.not_mem_erase

lemma RegAlloc.nodup_take (ra : RegAlloc) (r : Reg) (h : ra.free.Nodup) :
    (ra.take r).free.Nodup :=
  h.erase r

@[simp]
lemma stackRegs_nil : stackRegs [] = [] := rfl

@[simp]
lemma stackRegs_cons_reg (tr : TypedReg) (s : List Val) :
    stackRegs (.Reg tr :: s) = tr.reg :: stackRegs s := rfl

lemma stackRegs_cons_of_not (v : Val) (s : List Val) (h : v.isReg = false) :
    stackRegs (v :: s) = stackRegs s := by
  cases v <;> simp_all [stackRegs, Val.isReg, List.filterMap_cons]

@[simp]
lemma stackRegs_append (a b : List Val) :
    stackRegs (a ++ b) = stackRegs a ++ stackRegs b := by
  simp [stackRegs, List.filterMap_append]

lemma mem_stackRegs_of_mem (tr : TypedReg) (s : List Val) (h : Val.Reg tr ∈ s) :
    tr.reg ∈ stackRegs s :=
  List.mem_filterMap.mpr ⟨Val.Reg tr, h, rfl⟩

/-- Bundled facts about a successful spill of the whole operand stack:
the result contains no register-resident and no local entries; the free set
afterwards is the original free set plus exactly the registers the stack
referenced; duplicate-freeness of the free list is preserved; the stack
length is preserved; the stack pointer grows by the total spilled size; the
frame's own local storage is untouched; the instruction trace is extended. -/
lemma spillList_spec (fr : Frame) :
    ∀ (s : List Val) (ra : RegAlloc) (m : Masm) (s' : List Val) (ra' : RegAlloc) (m' : Masm),
      spillList fr s ra m = some (s', ra', m') →
        (∀ v ∈ s', v.isReg = false ∧ v.isLocalRef = false)
        ∧ (∀ x, x ∈ ra'.free ↔ x ∈ ra.free ∨ x ∈ stackRegs s)
        ∧ (ra.free.Nodup → ra'.free.Nodup)
        ∧ s'.length = s.length
        ∧ m'.sp = m.sp + sumSp fr s
        ∧ m'.localMem = m.localMem
        ∧ (∃ t, m'.trace = m.trace ++ t) := by
  intro s
  induction s with
  | nil =>
    intro ra m s' ra' m' h
    simp only [spillList, Option.some_inj, Prod.mk.injEq] at h
    obtain ⟨h1, h2, h3⟩ := h
    subst h1; subst h2; subst h3
    refine ⟨by simp, by simp, id, rfl, by simp [sumSp], rfl, ⟨[], by simp⟩⟩
  | cons v rest ih =>
    intro ra m s' ra' m' h
    cases v with
    | Reg tr =>
      simp only [spillList] at h
      cases hrec : spillList fr rest ra m with
      | none => rw [hrec] at h; cases h
      | some t =>
        obtain ⟨rest', ra1, m1⟩ := t
        rw [hrec] at h
        simp only [Option.map_some', Option.some_inj, Prod.mk.injEq] at h
        obtain ⟨h1, h2, h3⟩ := h
        subst h1; subst h2; subst h3
        obtain ⟨ih1, ih2, ih3, ih4, ih5, ih6, tr0, ih7⟩ := ih ra m rest' ra1 m1 hrec
        refine ⟨?_, ?_, ?_, by simp [ih4], ?_, by simp [Masm.pushToStack, ih6], ?_⟩
        · rintro w hw
          rcases List.mem_cons.mp hw with rfl | hw'
          · exact ⟨rfl, rfl⟩
          · exact ih1 w hw'
        · intro x
          rw [RegAlloc.mem_freeReg, ih2, stackRegs_cons_reg]
          simp only [List.mem_cons]
          tauto
        · intro hnd
          exact RegAlloc.nodup_freeReg _ _ (ih3 hnd)
        · simp only [sumSp, List.map_cons, List.sum_cons, Masm.pushToStack]
          simp only [sumSp] at ih5
          simp [ih5, spSizeF]
          omega
        · exact ⟨tr0 ++ [.push tr.reg tr.ty.size], by simp [Masm.pushToStack, ih7]⟩
    | Local lty idx =>
      simp only [spillList] at h
      cases hloc : fr.getLocal idx with
      | none => rw [hloc] at h; cases h
      | some lslot =>
        rw [hloc] at h
        cases hrec : spillList fr rest ra m with
        | none => rw [hrec] at h; cases h
        | some t =>
          obtain ⟨rest', ra1, m1⟩ := t
          rw [hrec] at h
          simp only [Option.map_some', Option.some_inj, Prod.mk.injEq] at h
          obtain ⟨h1, h2, h3⟩ := h
          subst h1; subst h2; subst h3
          obtain ⟨ih1, ih2, ih3, ih4, ih5, ih6, tr0, ih7⟩ := ih ra m rest' ra1 m1 hrec
          refine ⟨?_, ?_, ih3, by simp [ih4], ?_,
                  by simp [Masm.pushToStack, Masm.loadLocal, ih6], ?_⟩
          · rintro w hw
            rcases List.mem_cons.mp hw with rfl | hw'
            · exact ⟨rfl, rfl⟩
            · exact ih1 w hw'
          · intro x
            rw [ih2, stackRegs_cons_of_not _ _ (by simp [Val.isReg])]
          · simp only [sumSp, List.map_cons, List.sum_cons, Masm.pushToStack, Masm.loadLocal]
            simp only [sumSp] at ih5
            simp [ih5, spSizeF, hloc]
            omega
          · exact ⟨tr0 ++ [.loadLocal lslot.offset (scratchFor lslot.ty) lslot.ty.size,
                           .push (scratchFor lslot.ty) lslot.ty.size],
                   by simp [Masm.pushToStack, Masm.loadLocal, ih7]⟩
    | I32 n =>
      simp only [spillList] at h
      cases hrec : spillList fr rest ra m with
      | none => rw [hrec] at h; cases h
      | some t =>
        obtain ⟨rest', ra1, m1⟩ := t
        rw [hrec] at h
        simp only [Option.map_some', Option.some_inj, Prod.mk.injEq] at h
        obtain ⟨h1, h2, h3⟩ := h
        subst h1; subst h2; subst h3
        obtain ⟨ih1, ih2, ih3, ih4, ih5, ih6, tr0, ih7⟩ := ih ra m rest' ra1 m1 hrec
        refine ⟨?_, ?_, ih3, by simp [ih4], ?_, ih6, ⟨tr0, ih7⟩⟩
        · rintro w hw
          rcases List.mem_cons.mp hw with rfl | hw'
          · exact ⟨rfl, rfl⟩
          · exact ih1 w hw'
        · intro x
          rw [ih2, stackRegs_cons_of_not _ _ (by simp [Val.isReg])]
        · simp only [sumSp, List.map_cons, List.sum_cons]
          simp only [sumSp] at ih5
          simp [ih5, spSizeF]
    | I64 n =>
      simp only [spillList] at h
      cases hrec : spillList fr rest ra m with
      | none => rw [hrec] at h; cases h
      | some t =>
        obtain ⟨rest', ra1, m1⟩ := t
        rw [hrec] at h
        simp only [Option.map_some', Option.some_inj, Prod.mk.injEq] at h
        obtain ⟨h1, h2, h3⟩ := h
        subst h1; subst h2; subst h3
        obtain ⟨ih1, ih2, ih3, ih4, ih5, ih6, tr0, ih7⟩ := ih ra m rest' ra1 m1 hrec
        refine ⟨?_, ?_, ih3, by simp [ih4], ?_, ih6, ⟨tr0, ih7⟩⟩
        · rintro w hw
          rcases List.mem_cons.mp hw with rfl | hw'
          · exact ⟨rfl, rfl⟩
          · exact ih1 w hw'
        · intro x
          rw [ih2, stackRegs_cons_of_not _ _ (by simp [Val.isReg])]
        · simp only [sumSp, List.map_cons, List.sum_cons]
          simp only [sumSp] at ih5
          simp [ih5, spSizeF]
    | F32 n =>
      simp only [spillList] at h
      cases hrec : spillList fr rest ra m with
      | none => rw [hrec] at h; cases h
      | some t =>
        obtain ⟨rest', ra1, m1⟩ := t
        rw [hrec] at h
        simp only [Option.map_some', Option.some_inj, Prod.mk.injEq] at h
        obtain ⟨h1, h2, h3⟩ := h
        subst h1; subst h2; subst h3
        obtain ⟨ih1, ih2, ih3, ih4, ih5, ih6, tr0, ih7⟩ := ih ra m rest' ra1 m1 hrec
        refine ⟨?_, ?_, ih3, by simp [ih4], ?_, ih6, ⟨tr0, ih7⟩⟩
        · rintro w hw
          rcases List.mem_cons.mp hw with rfl | hw'
          · exact ⟨rfl, rfl⟩
          · exact ih1 w hw'
        · intro x
          rw [ih2, stackRegs_cons_of_not _ _ (by simp [Val.isReg])]
        · simp only [sumSp, List.map_cons, List.sum_cons]
          simp only [sumSp] at ih5
          simp [ih5, spSizeF]
    | F64 n =>
      simp only [spillList] at h
      cases hrec : spillList fr rest ra m with
      | none => rw [hrec] at h; cases h
      | some t =>
        obtain ⟨rest', ra1, m1⟩ := t
        rw [hrec] at h
        simp only [Option.map_some', Option.some_inj, Prod.mk.injEq] at h
        obtain ⟨h1, h2, h3⟩ := h
        subst h1; subst h2; subst h3
        obtain ⟨ih1, ih2, ih3, ih4, ih5, ih6, tr0, ih7⟩ := ih ra m rest' ra1 m1 hrec
        refine ⟨?_, ?_, ih3, by simp [ih4], ?_, ih6, ⟨tr0, ih7⟩⟩
        · rintro w hw
          rcases List.mem_cons.mp hw with rfl | hw'
          · exact ⟨rfl, rfl⟩
          · exact ih1 w hw'
        · intro x
          rw [ih2, stackRegs_cons_of_not _ _ (by simp [Val.isReg])]
        · simp only [sumSp, List.map_cons, List.sum_cons]
          simp only [sumSp] at ih5
          simp [ih5, spSizeF]
    | Memory mty slot =>
      simp only [spillList] at h
      cases hrec : spillList fr rest ra m with
      | none => rw [hrec] at h; cases h
      | some t =>
        obtain ⟨rest', ra1, m1⟩ := t
        rw [hrec] at h
        simp only [Option.map_some', Option.some_inj, Prod.mk.injEq] at h
        obtain ⟨h1, h2, h3⟩ := h
        subst h1; subst h2; subst h3
        obtain ⟨ih1, ih2, ih3, ih4, ih5, ih6, tr0, ih7⟩ := ih ra m rest' ra1 m1 hrec
        refine ⟨?_, ?_, ih3, by simp [ih4], ?_, ih6, ⟨tr0, ih7⟩⟩
        · rintro w hw
          rcases List.mem_cons.mp hw with rfl | hw'
          · exact ⟨rfl, rfl⟩
          · exact ih1 w hw'
        · intro x
          rw [ih2, stackRegs_cons_of_not _ _ (by simp [Val.isReg])]
        · simp only [sumSp, List.map_cons, List.sum_cons]
          simp only [sumSp] at ih5
          simp [ih5, spSizeF]

/-- A spill of a stack with no register-resident and no local entries does
nothing at all. -/
lemma spillList_id (fr : Frame) :
    ∀ (s : List Val) (ra : RegAlloc) (m : Masm),
      (∀ v ∈ s, v.isReg = false ∧ v.isLocalRef = false) →
      spillList fr s ra m = some (s, ra, m) := by
  intro s
  induction s with
  | nil => intro ra m _; simp [spillList]
  | cons v rest ih =>
    intro ra m hcl
    have hv := hcl v (List.mem_cons_self v rest)
    have hrest : ∀ w ∈ rest, w.isReg = false ∧ w.isLocalRef = false :=
      fun w hw => hcl w (List.mem_cons_of_mem v hw)
    cases v with
    | Reg tr => simp [Val.isReg] at hv
    | Local lty idx => simp [Val.isLocalRef] at hv
    | I32 n => simp [spillList, ih ra m hrest]
    | I64 n => simp [spillList, ih ra m hrest]
    | F32 n => simp [spillList, ih ra m hrest]
    | F64 n => simp [spillList, ih ra m hrest]
    | Memory mty slot => simp [spillList, ih ra m hrest]

lemma stackRegs_eq_nil (s : List Val) (h : ∀ v ∈ s, v.isReg = false) :
    stackRegs s = [] := by
  rw [stackRegs, List.filterMap_eq_nil_iff]
  intro v hv
  have := h v hv
  cases v <;> simp_all [Val.isReg]

/-- Context-level corollary of `spillList_spec` for `CodeGenContext::spill`. -/
lemma CodeGenContext.spill_spec (c : CodeGenContext) (m : Masm)
    (c1 : CodeGenContext) (m1 : Masm) (h : c.spill m = some (c1, m1)) :
    stackRegs c1.stack = []
    ∧ (∀ x, x ∈ c1.regalloc.free ↔ x ∈ c.regalloc.free ∨ x ∈ stackRegs c.stack)
    ∧ (c.regalloc.free.Nodup → c1.regalloc.free.Nodup)
    ∧ c1.stack.length = c.stack.length
    ∧ c1.frame = c.frame ∧ c1.reachable = c.reachable
    ∧ m1.sp = m.sp + sumSp c.frame c.stack
    ∧ m1.localMem = m.localMem
    ∧ (∃ t, m1.trace = m.trace ++ t)
    ∧ (∀ v ∈ c1.stack, v.isReg = false ∧ v.isLocalRef = false) := by
  unfold CodeGenContext.spill at h
  split at h
  next => cases h
  next s' ra' m' hs =>
    simp only [Option.some_inj, Prod.mk.injEq] at h
    obtain ⟨h1, h2⟩ := h
    subst h1; subst h2
    obtain ⟨a1, a2, a3, a4, a5, a6, a7⟩ := spillList_spec c.frame c.stack c.regalloc m s' ra' m' hs
    exact ⟨stackRegs_eq_nil s' (fun v hv => (a1 v hv).1), a2, a3, a4, rfl, rfl, a5, a6, a7, a1⟩

/-- A spill preserves register exclusivity. -/
lemma Inv_spill (c : CodeGenContext) (m : Masm) (c1 : CodeGenContext) (m1 : Masm)
    (hInv : Inv c) (h : c.spill m = some (c1, m1)) : Inv c1 := by
  obtain ⟨e1, _, e3, _⟩ := CodeGenContext.spill_spec c m c1 m1 h
  refine ⟨e3 hInv.1, ?_, ?_⟩
  · rw [e1]; exact List.nodup_nil
  · intro r hr; rw [e1] at hr; cases hr

/-- Specification of `CodeGenContext::reg` (specific-register allocation):
under register exclusivity, a successful allocation returns the requested
register, now busy and referenced by no stack entry; exclusivity is
preserved; the stack-referenced registers only shrink; the free set grows
only by previously stack-referenced registers; and the requested register
was free or stack-referenced to begin with. -/
lemma CodeGenContext.reg_spec (c : CodeGenContext) (m : Masm) (r r' : Reg)
    (c1 : CodeGenContext) (m1 : Masm) (hInv : Inv c)
    (h : c.reg m r = some (r', c1, m1)) :
    r' = r ∧ Inv c1 ∧ r ∉ c1.regalloc.free ∧ r ∉ stackRegs c1.stack
    ∧ (∀ x ∈ stackRegs c1.stack, x ∈ stackRegs c.stack)
    ∧ (∀ x ∈ c1.regalloc.free, x ∈ c.regalloc.free ∨ x ∈ stackRegs c.stack)
    ∧ (r ∈ c.regalloc.free ∨ r ∈ stackRegs c.stack)
    ∧ c1.stack.length = c.stack.length
    ∧ c1.frame = c.frame ∧ c1.reachable = c.reachable := by
  unfold CodeGenContext.reg at h
  by_cases hr : r ∈ c.regalloc.free
  · rw [if_pos hr] at h
    simp only [Option.some_inj, Prod.mk.injEq] at h
    obtain ⟨h1, h2, h3⟩ := h
    subst h1; subst h2; subst h3
    have hns : r ∉ stackRegs c.stack := fun hs => hInv.2.2 r hs hr
    refine ⟨rfl, ⟨RegAlloc.nodup_take _ _ hInv.1, hInv.2.1, ?_⟩,
            RegAlloc.not_mem_take_self _ _ hInv.1, hns, fun x hx => hx,
            fun x hx => Or.inl (RegAlloc.mem_take _ _ _ hx), Or.inl hr, rfl, rfl, rfl⟩
    intro x hx hxf
    exact hInv.2.2 x hx (RegAlloc.mem_take _ _ _ hxf)
  · rw [if_neg hr] at h
    split at h
    next => cases h
    next cs ms hs =>
      obtain ⟨e1, e2, e3, e4, e5, e6, _⟩ := CodeGenContext.spill_spec c m cs ms hs
      by_cases hr2 : r ∈ cs.regalloc.free
      · rw [if_pos hr2] at h
        simp only [Option.some_inj, Prod.mk.injEq] at h
        obtain ⟨h1, h2, h3⟩ := h
        subst h1; subst h2; subst h3
        have hnd : cs.regalloc.free.Nodup := e3 hInv.1
        refine ⟨rfl, ⟨RegAlloc.nodup_take _ _ hnd, ?_, ?_⟩,
                RegAlloc.not_mem_take_self _ _ hnd, ?_, ?_, ?_, ?_, e4, e5, e6⟩
        · rw [e1]; exact List.nodup_nil
        · intro x hx; rw [e1] at hx; cases hx
        · rw [e1]; simp
        · intro x hx; rw [e1] at hx; cases hx
        · intro x hx
          exact (e2 x).mp (RegAlloc.mem_take _ _ _ hx)
        · rcases (e2 r).mp hr2 with hh | hh
          · exact absurd hh hr
          · exact Or.inr hh
      · rw [if_neg hr2] at h
        cases h

/-- Specification of `CodeGenContext::reg_for_class` (class allocation),
with the same postconditions as `reg_spec`. -/
lemma CodeGenContext.regForClass_spec (c : CodeGenContext) (m : Masm) (cls : RegClass)
    (rr : Reg) (c1 : CodeGenContext) (m1 : Masm) (hInv : Inv c)
    (h : c.regForClass m cls = some (rr, c1, m1)) :
    Inv c1 ∧ rr ∉ c1.regalloc.free ∧ rr ∉ stackRegs c1.stack
    ∧ (∀ x ∈ stackRegs c1.stack, x ∈ stackRegs c.stack)
    ∧ (∀ x ∈ c1.regalloc.free, x ∈ c.regalloc.free ∨ x ∈ stackRegs c.stack)
    ∧ (rr ∈ c.regalloc.free ∨ rr ∈ stackRegs c.stack)
    ∧ c1.stack.length = c.stack.length
    ∧ c1.frame = c.frame ∧ c1.reachable = c.reachable := by
  unfold CodeGenContext.regForClass at h
  split at h
  next r hf =>
    have hr : r ∈ c.regalloc.free := List.mem_of_find?_eq_some hf
    simp only [Option.some_inj, Prod.mk.injEq] at h
    obtain ⟨h1, h2, h3⟩ := h
    subst h1; subst h2; subst h3
    have hns : r ∉ stackRegs c.stack := fun hs => hInv.2.2 r hs hr
    refine ⟨⟨RegAlloc.nodup_take _ _ hInv.1, hInv.2.1, ?_⟩,
            RegAlloc.not_mem_take_self _ _ hInv.1, hns, fun x hx => hx,
            fun x hx => Or.inl (RegAlloc.mem_take _ _ _ hx), Or.inl hr, rfl, rfl, rfl⟩
    intro x hx hxf
    exact hInv.2.2 x hx (RegAlloc.mem_take _ _ _ hxf)
  next hf =>
    split at h
    next => cases h
    next cs ms hs =>
      obtain ⟨e1, e2, e3, e4, e5, e6, _⟩ := CodeGenContext.spill_spec c m cs ms hs
      split at h
      next r hf2 =>
        have hr2 : r ∈ cs.regalloc.free := List.mem_of_find?_eq_some hf2
        simp only [Option.some_inj, Prod.mk.injEq] at h
        obtain ⟨h1, h2, h3⟩ := h
        subst h1; subst h2; subst h3
        have hnd : cs.regalloc.free.Nodup := e3 hInv.1
        refine ⟨⟨RegAlloc.nodup_take _ _ hnd, ?_, ?_⟩,
                RegAlloc.not_mem_take_self _ _ hnd, ?_, ?_, ?_, ?_, e4, e5, e6⟩
        · rw [e1]; exact List.nodup_nil
        · intro x hx; rw [e1] at hx; cases hx
        · rw [e1]; simp
        · intro x hx; rw [e1] at hx; cases hx
        · intro x hx
          exact (e2 x).mp (RegAlloc.mem_take _ _ _ hx)
        · exact (e2 r).mp hr2
      next => cases h

/-- Specification of `CodeGenContext::reg_for_type`. -/
lemma CodeGenContext.regForType_spec (c : CodeGenContext) (m : Masm) (ty : WasmType)
    (rr : Reg) (c1 : CodeGenContext) (m1 : Masm) (hInv : Inv c)
    (h : c.regForType m ty = some (rr, c1, m1)) :
    Inv c1 ∧ rr ∉ c1.regalloc.free ∧ rr ∉ stackRegs c1.stack
    ∧ (∀ x ∈ stackRegs c1.stack, x ∈ stackRegs c.stack)
    ∧ (∀ x ∈ c1.regalloc.free, x ∈ c.regalloc.free ∨ x ∈ stackRegs c.stack)
    ∧ (rr ∈ c.regalloc.free ∨ rr ∈ stackRegs c.stack)
    ∧ c1.stack.length = c.stack.length
    ∧ c1.frame = c.frame ∧ c1.reachable = c.reachable :=
  CodeGenContext.regForClass_spec c m ty.cls rr c1 m1 hInv h

lemma getLast?_append_one {A : Type} (l : List A) (a : A) :
    (l ++ [a]).getLast? = some a :=
  List.getLast?_concat _

/-- Specification of the slow-path register acquisition of `pop_to_reg`. -/
lemma CodeGenContext.allocFor_spec (c : CodeGenContext) (m : Masm) (named : Option Reg)
    (ty : WasmType) (r : Reg) (ca : CodeGenContext) (ma : Masm) (hInv : Inv c)
    (h : c.allocFor m named ty = some (r, ca, ma)) :
    Inv ca ∧ r ∉ ca.regalloc.free ∧ r ∉ stackRegs ca.stack
    ∧ (∀ x ∈ stackRegs ca.stack, x ∈ stackRegs c.stack)
    ∧ (∀ x ∈ ca.regalloc.free, x ∈ c.regalloc.free ∨ x ∈ stackRegs c.stack)
    ∧ (r ∈ c.regalloc.free ∨ r ∈ stackRegs c.stack)
    ∧ ca.stack.length = c.stack.length
    ∧ ca.frame = c.frame ∧ ca.reachable = c.reachable
    ∧ (∀ rr, named = some rr → r = rr) := by
  cases named with
  | none =>
    obtain ⟨a1, a2, a3, a4, a5, a6, a7, a8, a9⟩ :=
      CodeGenContext.regForType_spec c m ty r ca ma hInv h
    exact ⟨a1, a2, a3, a4, a5, a6, a7, a8, a9, fun rr hrr => nomatch hrr⟩
  | some rr =>
    obtain ⟨a0, a1, a2, a3, a4, a5, a6, a7, a8, a9⟩ :=
      CodeGenContext.reg_spec c m rr r ca ma hInv h
    subst a0
    exact ⟨a1, a2, a3, a4, a5, a6, a7, a8, a9, fun _ hrr => Option.some_inj.mp hrr⟩

/-- When the remaining stack holds no register-resident and no local
entries, acquiring a register emits nothing: the assembler is untouched. -/
lemma CodeGenContext.allocFor_clean (c : CodeGenContext) (m : Masm) (named : Option Reg)
    (ty : WasmType) (r : Reg) (ca : CodeGenContext) (ma : Masm)
    (hclean : ∀ v ∈ c.stack, v.isReg = false ∧ v.isLocalRef = false)
    (h : c.allocFor m named ty = some (r, ca, ma)) : ma = m := by
  have hspill : c.spill m = some ({ c with stack := c.stack, regalloc := c.regalloc }, m) := by
    unfold CodeGenContext.spill
    rw [spillList_id c.frame c.stack c.regalloc m hclean]
  cases named with
  | some rr =>
    simp only [CodeGenContext.allocFor] at h
    unfold CodeGenContext.reg at h
    by_cases hr : rr ∈ c.regalloc.free
    · rw [if_pos hr] at h
      exact (congrArg (fun p => p.2.2) (Option.some_inj.mp h)).symm
    · rw [if_neg hr, hspill] at h
      simp only [if_neg hr] at h
      cases h
  | none =>
    simp only [CodeGenContext.allocFor] at h
    unfold CodeGenContext.regForType CodeGenContext.regForClass at h
    cases hf : c.regalloc.free.find? (fun x => decide (x.cls = ty.cls)) with
    | some rr =>
      rw [hf] at h
      simp only [Option.some_inj, Prod.mk.injEq] at h
      exact h.2.2.symm
    | none =>
      rw [hf, hspill] at h
      simp only [hf] at h
      cases h

/-- Specification of `CodeGenContext::pop_to_reg`: under register
exclusivity, a successful pop preserves exclusivity, shortens the stack by
one, and hands back a register that is busy and referenced by no remaining
stack entry (the unique owner of the popped value); a memory-resident top
must have had its recorded offset equal to the assembler's stack-pointer
offset at materialization time and is materialized by an emitted
physical-stack pop; a register-resident top moved to a different named
register has its source register freed. -/
lemma CodeGenContext.popToReg_spec (c : CodeGenContext) (m : Masm) (named : Option Reg)
    (tr : TypedReg) (c1 : CodeGenContext) (m1 : Masm) (hInv : Inv c)
    (h : c.popToReg m named = some (tr, c1, m1)) :
    Inv c1
    ∧ tr.reg ∉ c1.regalloc.free
    ∧ tr.reg ∉ stackRegs c1.stack
    ∧ (∀ x ∈ stackRegs c1.stack, x ∈ stackRegs c.stack)
    ∧ (∀ x ∈ c1.regalloc.free, x ∈ c.regalloc.free ∨ x ∈ stackRegs c.stack)
    ∧ (tr.reg ∈ c.regalloc.free ∨ tr.reg ∈ stackRegs c.stack)
    ∧ c1.stack.length + 1 = c.stack.length
    ∧ c1.frame = c.frame ∧ c1.reachable = c.reachable
    ∧ (∀ ty slot rest0, c.stack = .Memory ty slot :: rest0 →
        tr.ty = ty ∧ m1.sp = slot.offset - ty.size
        ∧ m1.trace.getLast? = some (.pop tr.reg ty.size))
    ∧ (∀ r0 trb rest0, named = some r0 → c.stack = .Reg trb :: rest0 → trb.reg ≠ r0 →
        trb.reg ∈ c1.regalloc.free)
    ∧ (∀ ty slot rest0, c.stack = .Memory ty slot :: rest0 →
        (∀ v ∈ rest0, v.isReg = false ∧ v.isLocalRef = false) → slot.offset = m.sp) := by
  obtain ⟨hn1, hn2, hn3⟩ := hInv
  cases hst : c.stack with
  | nil =>
    unfold CodeGenContext.popToReg at h
    rw [hst] at h
    cases named <;> simp [stackPopReg, stackPopNamedReg] at h
  | cons val rest =>
    rw [hst] at hn2 hn3
    cases val with
    | Reg tr0 =>
      have hreg0 : tr0.reg ∉ c.regalloc.free := hn3 tr0.reg (by simp)
      have hnotin : tr0.reg ∉ stackRegs rest := (List.nodup_cons.mp hn2).1
      have hndrest : (stackRegs rest).Nodup := (List.nodup_cons.mp hn2).2
      have hInvRest : Inv { c with stack := rest } :=
        ⟨hn1, hndrest, fun x hx => hn3 x (List.mem_cons_of_mem _ hx)⟩
      cases named with
      | none =>
        unfold CodeGenContext.popToReg at h
        rw [hst] at h
        simp only [stackPopReg, Option.some_inj, Prod.mk.injEq] at h
        obtain ⟨h1, h2, h3⟩ := h
        subst h1; subst h2; subst h3
        refine ⟨⟨hn1, hndrest, fun x hx => hn3 x (List.mem_cons_of_mem _ hx)⟩,
                hreg0, hnotin, ?_, fun x hx => Or.inl hx, Or.inr (by simp),
                by simp [List.length_cons], rfl, rfl, ?_, ?_, ?_⟩
        · intro x hx
          exact List.mem_cons_of_mem _ hx
        · intro ty slot rest0 heq; simp at heq
        · intro r0 trb rest0 hq; cases hq
        · intro ty slot rest0 heq; simp at heq
      | some rr =>
        by_cases hrr : tr0.reg = rr
        · unfold CodeGenContext.popToReg at h
          rw [hst] at h
          simp only [stackPopNamedReg, if_pos hrr, Option.some_inj, Prod.mk.injEq] at h
          obtain ⟨h1, h2, h3⟩ := h
          subst h1; subst h2; subst h3
          refine ⟨⟨hn1, hndrest, fun x hx => hn3 x (List.mem_cons_of_mem _ hx)⟩,
                  hreg0, hnotin, ?_, fun x hx => Or.inl hx, Or.inr (by simp),
                  by simp [List.length_cons], rfl, rfl, ?_, ?_, ?_⟩
          · intro x hx
            exact List.mem_cons_of_mem _ hx
          · intro ty slot rest0 heq; simp at heq
          · intro r0 trb rest0 hq heq hne
            injection hq with hq1
            subst hq1
            injection heq with heq1 heq2
            injection heq1 with heq1
            subst heq1
            exact absurd hrr hne
          · intro ty slot rest0 heq; simp at heq
        · unfold CodeGenContext.popToReg at h
          rw [hst] at h
          have hfast : stackPopNamedReg rr (Val.Reg tr0 :: rest) = none := by
            simp [stackPopNamedReg, hrr]
          simp only [hfast] at h
          simp only [Val.ty] at h
          split at h
          next => cases h
          next r ca ma halloc =>
            simp only [CodeGenContext.moveValToReg, Option.some_inj, Prod.mk.injEq] at h
            obtain ⟨h1, h2, h3⟩ := h
            subst h1; subst h2; subst h3
            obtain ⟨a1, a2, a3, a4, a5, a6, a7, a8, a9, a10⟩ :=
              CodeGenContext.allocFor_spec _ m (some rr) tr0.ty r ca ma hInvRest halloc
            have hr : r = rr := a10 rr rfl
            subst hr
            refine ⟨?_, ?_, ?_, ?_, ?_, ?_, ?_, ?_, ?_, ?_, ?_, ?_⟩
            · refine ⟨RegAlloc.nodup_freeReg _ _ a1.1, a1.2.1, ?_⟩
              intro x hx hmem
              have hxr : x ∈ stackRegs rest := a4 x hx
              rcases (RegAlloc.mem_freeReg _ _ _).mp hmem with hq | hmem2
              · rw [hq] at hxr; exact hnotin hxr
              · exact a1.2.2 x hx hmem2
            · intro hmem
              rcases (RegAlloc.mem_freeReg _ _ _).mp hmem with hq | hmem2
              · exact hrr hq.symm
              · exact a2 hmem2
            · exact a3
            · intro x hx
              exact List.mem_cons_of_mem _ (a4 x hx)
            · intro x hx
              rcases (RegAlloc.mem_freeReg _ _ _).mp hx with hq | hmem2
              · rw [hq]; exact Or.inr (by simp)
              · rcases a5 x hmem2 with hc | hc
                · exact Or.inl hc
                · exact Or.inr (List.mem_cons_of_mem _ hc)
            · rcases a6 with hc | hc
              · exact Or.inl hc
              · exact Or.inr (List.mem_cons_of_mem _ hc)
            · simp [CodeGenContext.freeReg, List.length_cons, a7]
            · exact a8
            · exact a9
            · intro ty slot rest0 heq; simp at heq
            · intro r0 trb rest0 hq heq hne
              injection heq with heq1 heq2
              injection heq1 with heq1
              subst heq1
              exact (RegAlloc.mem_freeReg _ _ _).mpr (Or.inl rfl)
            · intro ty slot rest0 heq; simp at heq
    | Memory mty slot =>
      have hInvRest : Inv { c with stack := rest } := by
        rw [stackRegs_cons_of_not _ _ (by simp [Val.isReg])] at hn2 hn3
        exact ⟨hn1, hn2, hn3⟩
      unfold CodeGenContext.popToReg at h
      rw [hst] at h
      have hfast : (match named with
          | some d => stackPopNamedReg d (Val.Memory mty slot :: rest)
          | none => stackPopReg (Val.Memory mty slot :: rest)) = none := by
        cases named <;> simp [stackPopReg, stackPopNamedReg]
      simp only [hfast] at h
      simp only [Val.ty] at h
      split at h
      next => cases h
      next r ca ma halloc =>
        by_cases hoff : slot.offset = ma.sp
        case neg => rw [if_neg hoff] at h; cases h
        rw [if_pos hoff] at h
        simp only [Option.some_inj, Prod.mk.injEq] at h
        obtain ⟨h1, h2, h3⟩ := h
        subst h1; subst h2; subst h3
        obtain ⟨a1, a2, a3, a4, a5, a6, a7, a8, a9, a10⟩ :=
          CodeGenContext.allocFor_spec _ m named mty r ca ma hInvRest halloc
        refine ⟨a1, a2, a3, ?_, ?_, ?_, ?_, a8, a9, ?_, ?_, ?_⟩
        · intro x hx
          rw [stackRegs_cons_of_not _ _ (by simp [Val.isReg])]
          exact a4 x hx
        · intro x hx
          rcases a5 x hx with hc | hc
          · exact Or.inl hc
          · rw [stackRegs_cons_of_not _ _ (by simp [Val.isReg])]
            exact Or.inr hc
        · rcases a6 with hc | hc
          · exact Or.inl hc
          · rw [stackRegs_cons_of_not _ _ (by simp [Val.isReg])]
            exact Or.inr hc
        · simp [List.length_cons, a7]
        · intro ty2 slot2 rest0 heq
          injection heq with heq1 heq2
          injection heq1 with heq1a heq1b
          subst heq1a; subst heq1b
          refine ⟨rfl, ?_, ?_⟩
          · simp [Masm.popFromStack, hoff]
          · simp only [Masm.popFromStack]
            exact getLast?_append_one _ _
        · intro r0 trb rest0 hq heq hne
          simp at heq
        · intro ty2 slot2 rest0 heq hclean
          injection heq with heq1 heq2
          injection heq1 with heq1a heq1b
          subst heq1a; subst heq1b
          subst heq2
          have hma : ma = m :=
            CodeGenContext.allocFor_clean _ m named mty r ca ma hclean halloc
          rw [hoff, hma]
    | Local lty idx =>
      have hInvRest : Inv { c with stack := rest } := by
        rw [stackRegs_cons_of_not _ _ (by simp [Val.isReg])] at hn2 hn3
        exact ⟨hn1, hn2, hn3⟩
      unfold CodeGenContext.popToReg at h
      rw [hst] at h
      have hfast : (match named with
          | some d => stackPopNamedReg d (Val.Local lty idx :: rest)
          | none => stackPopReg (Val.Local lty idx :: rest)) = none := by
        cases named <;> simp [stackPopReg, stackPopNamedReg]
      simp only [hfast] at h
      simp only [Val.ty] at h
      split at h
      next => cases h
      next r ca ma halloc =>
        simp only [CodeGenContext.moveValToReg] at h
        split at h
        next => cases h
        next lslot hloc =>
          simp only [Option.some_inj, Prod.mk.injEq] at h
          obtain ⟨h1, h2, h3⟩ := h
          subst h1; subst h2; subst h3
          obtain ⟨a1, a2, a3, a4, a5, a6, a7, a8, a9, a10⟩ :=
            CodeGenContext.allocFor_spec _ m named lty r ca ma hInvRest halloc
          refine ⟨a1, a2, a3, ?_, ?_, ?_, ?_, a8, a9, ?_, ?_, ?_⟩
          · intro x hx
            rw [stackRegs_cons_of_not _ _ (by simp [Val.isReg])]
            exact a4 x hx
          · intro x hx
            rcases a5 x hx with hc | hc
            · exact Or.inl hc
            · rw [stackRegs_cons_of_not _ _ (by simp [Val.isReg])]
              exact Or.inr hc
          · rcases a6 with hc | hc
            · exact Or.inl hc
            · rw [stackRegs_cons_of_not _ _ (by simp [Val.isReg])]
              exact Or.inr hc
          · simp [List.length_cons, a7]
          · intro ty slot rest0 heq
            simp at heq
          · intro r0 trb rest0 hq heq hne
            simp at heq
          · intro ty slot rest0 heq
            simp at heq
    | I32 n =>
      have hInvRest : Inv { c with stack := rest } := by
        rw [stackRegs_cons_of_not _ _ (by simp [Val.isReg])] at hn2 hn3
        exact ⟨hn1, hn2, hn3⟩
      unfold CodeGenContext.popToReg at h
      rw [hst] at h
      have hfast : (match named with
          | some d => stackPopNamedReg d (Val.I32 n :: rest)
          | none => stackPopReg (Val.I32 n :: rest)) = none := by
        cases named <;> simp [stackPopReg, stackPopNamedReg]
      simp only [hfast] at h
      simp only [Val.ty] at h
      split at h
      next => cases h
      next r ca ma halloc =>
        simp only [CodeGenContext.moveValToReg, Option.some_inj, Prod.mk.injEq] at h
        obtain ⟨h1, h2, h3⟩ := h
        subst h1; subst h2; subst h3
        obtain ⟨a1, a2, a3, a4, a5, a6, a7, a8, a9, a10⟩ :=
          CodeGenContext.allocFor_spec _ m named WasmType.I32 r ca ma hInvRest halloc
        refine ⟨a1, a2, a3, ?_, ?_, ?_, ?_, a8, a9, ?_, ?_, ?_⟩
        · intro x hx
          rw [stackRegs_cons_of_not _ _ (by simp [Val.isReg])]
          exact a4 x hx
        · intro x hx
          rcases a5 x hx with hc | hc
          · exact Or.inl hc
          · rw [stackRegs_cons_of_not _ _ (by simp [Val.isReg])]
            exact Or.inr hc
        · rcases a6 with hc | hc
          · exact Or.inl hc
          · rw [stackRegs_cons_of_not _ _ (by simp [Val.isReg])]
            exact Or.inr hc
        · simp [List.length_cons, a7]
        · intro ty slot rest0 heq
          simp at heq
        · intro r0 trb rest0 hq heq hne
          simp at heq
        · intro ty slot rest0 heq
          simp at heq
    | I64 n =>
      have hInvRest : Inv { c with stack := rest } := by
        rw [stackRegs_cons_of_not _ _ (by simp [Val.isReg])] at hn2 hn3
        exact ⟨hn1, hn2, hn3⟩
      unfold CodeGenContext.popToReg at h
      rw [hst] at h
      have hfast : (match named with
          | some d => stackPopNamedReg d (Val.I64 n :: rest)
          | none => stackPopReg (Val.I64 n :: rest)) = none := by
        cases named <;> simp [stackPopReg, stackPopNamedReg]
      simp only [hfast] at h
      simp only [Val.ty] at h
      split at h
      next => cases h
      next r ca ma halloc =>
        simp only [CodeGenContext.moveValToReg, Option.some_inj, Prod.mk.injEq] at h
        obtain ⟨h1, h2, h3⟩ := h
        subst h1; subst h2; subst h3
        obtain ⟨a1, a2, a3, a4, a5, a6, a7, a8, a9, a10⟩ :=
          CodeGenContext.allocFor_spec _ m named WasmType.I64 r ca ma hInvRest halloc
        refine ⟨a1, a2, a3, ?_, ?_, ?_, ?_, a8, a9, ?_, ?_, ?_⟩
        · intro x hx
          rw [stackRegs_cons_of_not _ _ (by simp [Val.isReg])]
          exact a4 x hx
        · intro x hx
          rcases a5 x hx with hc | hc
          · exact Or.inl hc
          · rw [stackRegs_cons_of_not _ _ (by simp [Val.isReg])]
            exact Or.inr hc
        · rcases a6 with hc | hc
          · exact Or.inl hc
          · rw [stackRegs_cons_of_not _ _ (by simp [Val.isReg])]
            exact Or.inr hc
        · simp [List.length_cons, a7]
        · intro ty slot rest0 heq
          simp at heq
        · intro r0 trb rest0 hq heq hne
          simp at heq
        · intro ty slot rest0 heq
          simp at heq
    | F32 n =>
      have hInvRest : Inv { c with stack := rest } := by
        rw [stackRegs_cons_of_not _ _ (by simp [Val.isReg])] at hn2 hn3
        exact ⟨hn1, hn2, hn3⟩
      unfold CodeGenContext.popToReg at h
      rw [hst] at h
      have hfast : (match named with
          | some d => stackPopNamedReg d (Val.F32 n :: rest)
          | none => stackPopReg (Val.F32 n :: rest)) = none := by
        cases named <;> simp [stackPopReg, stackPopNamedReg]
      simp only [hfast] at h
      simp only [Val.ty] at h
      split at h
      next => cases h
      next r ca ma halloc =>
        simp only [CodeGenContext.moveValToReg, Option.some_inj, Prod.mk.injEq] at h
        obtain ⟨h1, h2, h3⟩ := h
        subst h1; subst h2; subst h3
        obtain ⟨a1, a2, a3, a4, a5, a6, a7, a8, a9, a10⟩ :=
          CodeGenContext.allocFor_spec _ m named WasmType.F32 r ca ma hInvRest halloc
        refine ⟨a1, a2, a3, ?_, ?_, ?_, ?_, a8, a9, ?_, ?_, ?_⟩
        · intro x hx
          rw [stackRegs_cons_of_not _ _ (by simp [Val.isReg])]
          exact a4 x hx
        · intro x hx
          rcases a5 x hx with hc | hc
          · exact Or.inl hc
          · rw [stackRegs_cons_of_not _ _ (by simp [Val.isReg])]
            exact Or.inr hc
        · rcases a6 with hc | hc
          · exact Or.inl hc
          · rw [stackRegs_cons_of_not _ _ (by simp [Val.isReg])]
            exact Or.inr hc
        · simp [List.length_cons, a7]
        · intro ty slot rest0 heq
          simp at heq
        · intro r0 trb rest0 hq heq hne
          simp at heq
        · intro ty slot rest0 heq
          simp at heq
    | F64 n =>
      have hInvRest : Inv { c with stack := rest } := by
        rw [stackRegs_cons_of_not _ _ (by simp [Val.isReg])] at hn2 hn3
        exact ⟨hn1, hn2, hn3⟩
      unfold CodeGenContext.popToReg at h
      rw [hst] at h
      have hfast : (match named with
          | some d => stackPopNamedReg d (Val.F64 n :: rest)
          | none => stackPopReg (Val.F64 n :: rest)) = none := by
        cases named <;> simp [stackPopReg, stackPopNamedReg]
      simp only [hfast] at h
      simp only [Val.ty] at h
      split at h
      next => cases h
      next r ca ma halloc =>
        simp only [CodeGenContext.moveValToReg, Option.some_inj, Prod.mk.injEq] at h
        obtain ⟨h1, h2, h3⟩ := h
        subst h1; subst h2; subst h3
        obtain ⟨a1, a2, a3, a4, a5, a6, a7, a8, a9, a10⟩ :=
          CodeGenContext.allocFor_spec _ m named WasmType.F64 r ca ma hInvRest halloc
        refine ⟨a1, a2, a3, ?_, ?_, ?_, ?_, a8, a9, ?_, ?_, ?_⟩
        · intro x hx
          rw [stackRegs_cons_of_not _ _ (by simp [Val.isReg])]
          exact a4 x hx
        · intro x hx
          rcases a5 x hx with hc | hc
          · exact Or.inl hc
          · rw [stackRegs_cons_of_not _ _ (by simp [Val.isReg])]
            exact Or.inr hc
        · rcases a6 with hc | hc
          · exact Or.inl hc
          · rw [stackRegs_cons_of_not _ _ (by simp [Val.isReg])]
            exact Or.inr hc
        · simp [List.length_cons, a7]
        · intro ty slot rest0 heq
          simp at heq
        · intro r0 trb rest0 hq heq hne
          simp at heq
        · intro ty slot rest0 heq
          simp at heq

/-- Pushing a freshly produced register value whose register is busy and
unreferenced preserves exclusivity. -/
lemma Inv_push_reg (c : CodeGenContext) (t : TypedReg) (hInv : Inv c)
    (hfree : t.reg ∉ c.regalloc.free) (href : t.reg ∉ stackRegs c.stack) :
    Inv { c with stack := .Reg t :: c.stack } := by
  refine ⟨hInv.1, ?_, ?_⟩
  · rw [stackRegs_cons_reg]
    exact List.Nodup.cons href hInv.2.1
  · intro x hx
    rw [stackRegs_cons_reg] at hx
    rcases List.mem_cons.mp hx with rfl | hx2
    · exact hfree
    · exact hInv.2.2 x hx2

/-- `unop` preserves exclusivity (the emission callback returns the register
it is handed). -/
lemma CodeGenContext.unop_inv (c : CodeGenContext) (m : Masm) (sz : OperandSize)
    (emit : Masm → Reg → OperandSize → TypedReg × Masm)
    (c1 : CodeGenContext) (m1 : Masm)
    (hemit : ∀ mm r szz, (emit mm r szz).1.reg = r) (hInv : Inv c)
    (h : c.unop m sz emit = some (c1, m1)) :
    Inv c1 ∧ c1.frame = c.frame ∧ c1.reachable = c.reachable := by
  unfold CodeGenContext.unop at h
  split at h
  next => cases h
  next tr ca ma hpop =>
    simp only [Option.some_inj, Prod.mk.injEq] at h
    obtain ⟨h1, h2⟩ := h
    subst h1; subst h2
    obtain ⟨a1, a2, a3, _, _, _, _, a8, a9, _⟩ :=
      CodeGenContext.popToReg_spec c m none tr ca ma hInv hpop
    have he := hemit ma tr.reg sz
    refine ⟨?_, a8, a9⟩
    have := Inv_push_reg ca (emit ma tr.reg sz).1 a1 (by rw [he]; exact a2) (by rw [he]; exact a3)
    exact this

/-- `binop` preserves exclusivity. -/
lemma CodeGenContext.binop_inv (c : CodeGenContext) (m : Masm) (sz : OperandSize)
    (emit : Masm → Reg → Reg → OperandSize → TypedReg × Masm)
    (c1 : CodeGenContext) (m1 : Masm)
    (hemit : ∀ mm d s szz, (emit mm d s szz).1.reg = d) (hInv : Inv c)
    (h : c.binop m sz emit = some (c1, m1)) :
    Inv c1 ∧ c1.frame = c.frame ∧ c1.reachable = c.reachable := by
  unfold CodeGenContext.binop at h
  split at h
  next => cases h
  next src ca ma hpop1 =>
    split at h
    next => cases h
    next d0 cb mb hpop2 =>
      simp only [Option.some_inj, Prod.mk.injEq] at h
      obtain ⟨h1, h2⟩ := h
      subst h1; subst h2
      obtain ⟨a1, a2, a3, a4, a5, a6, a7, a8, a9, _⟩ :=
        CodeGenContext.popToReg_spec c m none src ca ma hInv hpop1
      obtain ⟨b1, b2, b3, b4, b5, b6, b7, b8, b9, _⟩ :=
        CodeGenContext.popToReg_spec ca ma none d0 cb mb a1 hpop2
      have hsrcB : src.reg ∉ cb.regalloc.free := by
        intro hx
        rcases b5 src.reg hx with hc | hc
        · exact a2 hc
        · exact a3 hc
      have hsrcS : src.reg ∉ stackRegs cb.stack := fun hx => a3 (b4 src.reg hx)
      have hne : d0.reg ≠ src.reg := by
        rcases b6 with hc | hc
        · intro he; rw [he] at hc; exact a2 hc
        · intro he; rw [he] at hc; exact a3 hc
      have hInvFree : Inv (cb.freeReg src.reg) := by
        refine ⟨RegAlloc.nodup_freeReg _ _ b1.1, b1.2.1, ?_⟩
        intro x hx hmem
        rcases (RegAlloc.mem_freeReg _ _ _).mp hmem with hq | hmem2
        · rw [hq] at hx; exact hsrcS hx
        · exact b1.2.2 x hx hmem2
      have he := hemit mb d0.reg src.reg sz
      refine ⟨?_, b8.trans a8, b9.trans a9⟩
      have hp := Inv_push_reg (cb.freeReg src.reg) (emit mb d0.reg src.reg sz).1 hInvFree
        (by rw [he]
            intro hmem
            rcases (RegAlloc.mem_freeReg _ _ _).mp hmem with hq | hmem2
            · exact hne hq
            · exact b2 hmem2)
        (by rw [he]; exact b3)
      exact hp

/-- `i32_binop` preserves exclusivity. -/
lemma CodeGenContext.i32binop_inv (c : CodeGenContext) (m : Masm)
    (emit : Masm → Reg → RegImm → OperandSize → TypedReg × Masm)
    (c1 : CodeGenContext) (m1 : Masm)
    (hemit : ∀ mm d s szz, (emit mm d s szz).1.reg = d) (hInv : Inv c)
    (h : c.i32binop m emit = some (c1, m1)) :
    Inv c1 ∧ c1.frame = c.frame ∧ c1.reachable = c.reachable := by
  unfold CodeGenContext.i32binop at h
  split at h
  next v rest hst =>
    have hInv0 : Inv { c with stack := rest } := by
      obtain ⟨hn1, hn2, hn3⟩ := hInv
      rw [hst, stackRegs_cons_of_not _ _ (by simp [Val.isReg])] at hn2 hn3
      exact ⟨hn1, hn2, hn3⟩
    dsimp only at h
    split at h
    next => cases h
    next tr ca ma hpop =>
      simp only [Option.some_inj, Prod.mk.injEq] at h
      obtain ⟨h1, h2⟩ := h
      subst h1; subst h2
      obtain ⟨a1, a2, a3, _, _, _, _, a8, a9, _⟩ :=
        CodeGenContext.popToReg_spec _ m none tr ca ma hInv0 hpop
      have he := hemit ma tr.reg (.imm v) .S32
      exact ⟨Inv_push_reg ca (emit ma tr.reg (.imm v) .S32).1 a1
               (by rw [he]; exact a2) (by rw [he]; exact a3), a8, a9⟩
  next hne hst =>
    exact CodeGenContext.binop_inv c m .S32 _ c1 m1
      (fun mm d s szz => hemit mm d (.reg s) szz) hInv h
  next => cases h

/-- `i64_binop` preserves exclusivity. -/
lemma CodeGenContext.i64binop_inv (c : CodeGenContext) (m : Masm)
    (emit : Masm → Reg → RegImm → OperandSize → TypedReg × Masm)
    (c1 : CodeGenContext) (m1 : Masm)
    (hemit : ∀ mm d s szz, (emit mm d s szz).1.reg = d) (hInv : Inv c)
    (h : c.i64binop m emit = some (c1, m1)) :
    Inv c1 ∧ c1.frame = c.frame ∧ c1.reachable = c.reachable := by
  unfold CodeGenContext.i64binop at h
  split at h
  next v rest hst =>
    have hInv0 : Inv { c with stack := rest } := by
      obtain ⟨hn1, hn2, hn3⟩ := hInv
      rw [hst, stackRegs_cons_of_not _ _ (by simp [Val.isReg])] at hn2 hn3
      exact ⟨hn1, hn2, hn3⟩
    dsimp only at h
    split at h
    next => cases h
    next tr ca ma hpop =>
      simp only [Option.some_inj, Prod.mk.injEq] at h
      obtain ⟨h1, h2⟩ := h
      subst h1; subst h2
      obtain ⟨a1, a2, a3, _, _, _, _, a8, a9, _⟩ :=
        CodeGenContext.popToReg_spec _ m none tr ca ma hInv0 hpop
      have he := hemit ma tr.reg (.imm v) .S64
      exact ⟨Inv_push_reg ca (emit ma tr.reg (.imm v) .S64).1 a1
               (by rw [he]; exact a2) (by rw [he]; exact a3), a8, a9⟩
  next hne hst =>
    exact CodeGenContext.binop_inv c m .S64 _ c1 m1
      (fun mm d s szz => hemit mm d (.reg s) szz) hInv h
  next => cases h

/-- Effect of the register-freeing callback fold on the free set. -/
lemma foldl_freeVal_mem (l : List Val) :
    ∀ (ra : RegAlloc) (x : Reg),
      x ∈ (l.foldl freeVal ra).free ↔ x ∈ ra.free ∨ x ∈ stackRegs l := by
  induction l with
  | nil => intro ra x; simp
  | cons v rest ih =>
    intro ra x
    cases v with
    | Reg tr =>
      simp only [List.foldl_cons, freeVal, stackRegs_cons_reg]
      rw [ih]
      simp only [RegAlloc.mem_freeReg, List.mem_cons]
      tauto
    | I32 n =>
      simp only [List.foldl_cons, freeVal]
      rw [ih, stackRegs_cons_of_not _ _ (by simp [Val.isReg])]
    | I64 n =>
      simp only [List.foldl_cons, freeVal]
      rw [ih, stackRegs_cons_of_not _ _ (by simp [Val.isReg])]
    | F32 n =>
      simp only [List.foldl_cons, freeVal]
      rw [ih, stackRegs_cons_of_not _ _ (by simp [Val.isReg])]
    | F64 n =>
      simp only [List.foldl_cons, freeVal]
      rw [ih, stackRegs_cons_of_not _ _ (by simp [Val.isReg])]
    | Local lty idx =>
      simp only [List.foldl_cons, freeVal]
      rw [ih, stackRegs_cons_of_not _ _ (by simp [Val.isReg])]
    | Memory mty slot =>
      simp only [List.foldl_cons, freeVal]
      rw [ih, stackRegs_cons_of_not _ _ (by simp [Val.isReg])]

lemma foldl_freeVal_nodup (l : List Val) :
    ∀ ra : RegAlloc, ra.free.Nodup → (l.foldl freeVal ra).free.Nodup := by
  induction l with
  | nil => intro ra h; exact h
  | cons v rest ih =>
    intro ra h
    cases v with
    | Reg tr => exact ih _ (RegAlloc.nodup_freeReg _ _ h)
    | I32 n => exact ih _ h
    | I64 n => exact ih _ h
    | F32 n => exact ih _ h
    | F64 n => exact ih _ h
    | Local lty idx => exact ih _ h
    | Memory mty slot => exact ih _ h

/-- `drop_last` with the register-freeing callback preserves exclusivity. -/
lemma CodeGenContext.dropLast_inv (c : CodeGenContext) (n : Nat) (c1 : CodeGenContext)
    (hInv : Inv c) (h : c.dropLastOp n freeVal = some c1) : Inv c1 := by
  unfold CodeGenContext.dropLastOp at h
  split_ifs at h with h0 hn
  · exact Option.some_inj.mp h ▸ hInv
  · rw [← Option.some_inj.mp h]
    have hsplit : stackRegs c.stack = stackRegs (c.stack.take n) ++ stackRegs (c.stack.drop n) := by
      rw [← stackRegs_append, List.take_append_drop]
    have hnd := hInv.2.1
    rw [hsplit] at hnd
    have hnd2 := List.nodup_append.mp hnd
    refine ⟨foldl_freeVal_nodup _ _ hInv.1, hnd2.2.1, ?_⟩
    intro x hx hmem
    rcases (foldl_freeVal_mem _ _ _).mp hmem with hc | hc
    · exact hInv.2.2 x (by rw [hsplit]; exact List.mem_append_right _ hx) hc
    · exact hnd2.2.2 hc hx

/-- `truncate_stack_to` preserves exclusivity. -/
lemma CodeGenContext.truncate_inv (c : CodeGenContext) (tgt : Nat) (c1 : CodeGenContext)
    (hInv : Inv c) (h : c.truncateStackTo tgt = some c1) : Inv c1 := by
  unfold CodeGenContext.truncateStackTo at h
  split_ifs at h
  · exact CodeGenContext.dropLast_inv c _ c1 hInv h
  · exact Option.some_inj.mp h ▸ hInv

/-- The operand loop of `push_abi_results` preserves exclusivity. -/
lemma CodeGenContext.pushAbiGo_inv :
    ∀ (ops : List ABIOperand) (c : CodeGenContext) (m : Masm) (area : Option RetArea)
      (c1 : CodeGenContext) (m1 : Masm), Inv c →
      CodeGenContext.pushAbiGo ops c m area = some (c1, m1) → Inv c1 := by
  intro ops
  induction ops with
  | nil =>
    intro c m area c1 m1 hInv h
    simp only [CodeGenContext.pushAbiGo, Option.some_inj, Prod.mk.injEq] at h
    exact h.1 ▸ hInv
  | cons op rest ih =>
    intro c m area c1 m1 hInv h
    cases op with
    | reg r ty =>
      simp only [CodeGenContext.pushAbiGo] at h
      split_ifs at h with hav
      split at h
      next => cases h
      next r2 ca ma hreg =>
        obtain ⟨a0, a1, a2, a3, _⟩ := CodeGenContext.reg_spec c m r r2 ca ma hInv hreg
        rw [a0] at h
        exact ih _ ma area c1 m1 (Inv_push_reg ca ⟨ty, r⟩ a1 a2 a3) h
    | stack ty off sz =>
      simp only [CodeGenContext.pushAbiGo] at h
      split at h
      next spOff =>
        refine ih _ m _ c1 m1 ?_ h
        refine ⟨hInv.1, ?_, ?_⟩
        · rw [stackRegs_cons_of_not _ _ (by simp [Val.isReg])]
          exact hInv.2.1
        · intro x hx
          rw [stackRegs_cons_of_not _ _ (by simp [Val.isReg])] at hx
          exact hInv.2.2 x hx
      next => cases h
      next => cases h

/-- `push_abi_results` preserves exclusivity, provided the return-area
callback does. -/
lemma CodeGenContext.pushAbiResults_inv (c : CodeGenContext) (results : ABIResults)
    (m : Masm)
    (calcRet : ABIResults → CodeGenContext → Masm → Option RetArea × CodeGenContext × Masm)
    (c1 : CodeGenContext) (m1 : Masm)
    (hcalc : ∀ c0 m0, Inv c0 → Inv (calcRet results c0 m0).2.1) (hInv : Inv c)
    (h : c.pushAbiResults results m calcRet = some (c1, m1)) : Inv c1 := by
  unfold CodeGenContext.pushAbiResults at h
  split_ifs at h
  · dsimp only at h
    split at h
    next => cases h
    next ra hra =>
      exact CodeGenContext.pushAbiGo_inv _ _ _ _ c1 m1 (hcalc c m hInv) h
  · exact CodeGenContext.pushAbiGo_inv _ _ _ _ c1 m1 hInv h

/-- C1: Register exclusivity invariant — for every operation of the code
generation context (pushes of non-register values, pushes of freshly
allocated registers, register allocation, `pop_to_reg`, the unary/binary
operation helpers, spilling, `drop_last` with the register-freeing
callback, `truncate_stack_to`, and `push_abi_results` with an
exclusivity-preserving return-area callback), if no two live operand-stack
entries reference the same machine register and every referenced register
is busy in the allocator (with a duplicate-free free list), the same holds
after the operation: a register is owned by at most one live stack entry at
a time. -/
theorem c1_register_exclusivity (s s' : CodeGenContext × Masm)
    (hstep : Step s s') (hInv : Inv s.1) : Inv s'.1 := by
  cases hstep with
  | pushVal c m v hv =>
    refine ⟨hInv.1, ?_, ?_⟩
    · rw [stackRegs_cons_of_not v _ hv]
      exact hInv.2.1
    · intro x hx
      rw [stackRegs_cons_of_not v _ hv] at hx
      exact hInv.2.2 x hx
  | pushAlloc c c1 m m1 cls ty r h =>
    obtain ⟨a1, a2, a3, _⟩ := CodeGenContext.regForClass_spec c m cls r c1 m1 hInv h
    exact Inv_push_reg c1 ⟨ty, r⟩ a1 a2 a3
  | allocNamed c c1 m m1 r r' h =>
    exact (CodeGenContext.reg_spec c m r r' c1 m1 hInv h).2.1
  | allocClass c c1 m m1 cls r h =>
    exact (CodeGenContext.regForClass_spec c m cls r c1 m1 hInv h).1
  | popReg c c1 m m1 named tr h =>
    exact (CodeGenContext.popToReg_spec c m named tr c1 m1 hInv h).1
  | unopStep c c1 m m1 sz emit hemit h =>
    exact (CodeGenContext.unop_inv c m sz emit c1 m1 hemit hInv h).1
  | binopStep c c1 m m1 sz emit hemit h =>
    exact (CodeGenContext.binop_inv c m sz emit c1 m1 hemit hInv h).1
  | i32binopStep c c1 m m1 emit hemit h =>
    exact (CodeGenContext.i32binop_inv c m emit c1 m1 hemit hInv h).1
  | i64binopStep c c1 m m1 emit hemit h =>
    exact (CodeGenContext.i64binop_inv c m emit c1 m1 hemit hInv h).1
  | spillStep c c1 m m1 h =>
    exact Inv_spill c m c1 m1 hInv h
  | dropStep c c1 m n h =>
    exact CodeGenContext.dropLast_inv c n c1 hInv h
  | truncStep c c1 m tgt h =>
    exact CodeGenContext.truncate_inv c tgt c1 hInv h
  | pushAbiStep c c1 m m1 results calcRet hcalc h =>
    exact CodeGenContext.pushAbiResults_inv c results m calcRet c1 m1 hcalc hInv h

/-- Witness for C1 at a concrete step: pushing the constant 5 onto an empty
stack with one free register preserves the invariant. -/
theorem c1_register_exclusivity_witness :
    Inv (CodeGenContext.mk ⟨[⟨.Int, 0⟩]⟩ [] ⟨[]⟩ true)
    ∧ Inv (CodeGenContext.mk ⟨[⟨.Int, 0⟩]⟩ [Val.I32 5] ⟨[]⟩ true) :=
  ⟨by decide,
   c1_register_exclusivity
     (CodeGenContext.mk ⟨[⟨.Int, 0⟩]⟩ [] ⟨[]⟩ true, Masm.mk 0 [] [] [] [])
     (CodeGenContext.mk ⟨[⟨.Int, 0⟩]⟩ [Val.I32 5] ⟨[]⟩ true, Masm.mk 0 [] [] [] [])
     (Step.pushVal (CodeGenContext.mk ⟨[⟨.Int, 0⟩]⟩ [] ⟨[]⟩ true)
       (Masm.mk 0 [] [] [] []) (Val.I32 5) (by decide))
     (by decide)⟩

lemma CodeGenContext.spill_reach (c : CodeGenContext) (m : Masm)
    (c1 : CodeGenContext) (m1 : Masm) (h : c.spill m = some (c1, m1)) :
    c1.reachable = c.reachable ∧ c1.frame = c.frame := by
  unfold CodeGenContext.spill at h
  split at h
  next => cases h
  next s' ra' m' hs =>
    simp only [Option.some_inj, Prod.mk.injEq] at h
    rw [← h.1]
    exact ⟨rfl, rfl⟩

lemma CodeGenContext.reg_reach (c : CodeGenContext) (m : Masm) (r r' : Reg)
    (c1 : CodeGenContext) (m1 : Masm) (h : c.reg m r = some (r', c1, m1)) :
    c1.reachable = c.reachable ∧ c1.frame = c.frame := by
  unfold CodeGenContext.reg at h
  split_ifs at h with hr
  · simp only [Option.some_inj, Prod.mk.injEq] at h
    rw [← h.2.1]
    exact ⟨rfl, rfl⟩
  · split at h
    next => cases h
    next cs ms hs =>
      obtain ⟨e1, e2⟩ := CodeGenContext.spill_reach c m cs ms hs
      split_ifs at h with hr2
      simp only [Option.some_inj, Prod.mk.injEq] at h
      rw [← h.2.1]
      exact ⟨e1, e2⟩

lemma CodeGenContext.regForClass_reach (c : CodeGenContext) (m : Masm) (cls : RegClass)
    (r : Reg) (c1 : CodeGenContext) (m1 : Masm)
    (h : c.regForClass m cls = some (r, c1, m1)) :
    c1.reachable = c.reachable ∧ c1.frame = c.frame := by
  unfold CodeGenContext.regForClass at h
  split at h
  next rr hf =>
    simp only [Option.some_inj, Prod.mk.injEq] at h
    rw [← h.2.1]
    exact ⟨rfl, rfl⟩
  next hf =>
    split at h
    next => cases h
    next cs ms hs =>
      obtain ⟨e1, e2⟩ := CodeGenContext.spill_reach c m cs ms hs
      split at h
      next rr hf2 =>
        simp only [Option.some_inj, Prod.mk.injEq] at h
        rw [← h.2.1]
        exact ⟨e1, e2⟩
      next => cases h

lemma CodeGenContext.allocFor_reach (c : CodeGenContext) (m : Masm) (named : Option Reg)
    (ty : WasmType) (r : Reg) (ca : CodeGenContext) (ma : Masm)
    (h : c.allocFor m named ty = some (r, ca, ma)) :
    ca.reachable = c.reachable ∧ ca.frame = c.frame := by
  cases named with
  | some rr => exact CodeGenContext.reg_reach c m rr r ca ma h
  | none => exact CodeGenContext.regForClass_reach c m ty.cls r ca ma h

lemma CodeGenContext.popToReg_reach (c : CodeGenContext) (m : Masm) (named : Option Reg)
    (tr : TypedReg) (c1 : CodeGenContext) (m1 : Masm)
    (h : c.popToReg m named = some (tr, c1, m1)) :
    c1.reachable = c.reachable ∧ c1.frame = c.frame := by
  unfold CodeGenContext.popToReg at h
  dsimp only at h
  split at h
  next p hfast =>
    simp only [Option.some_inj, Prod.mk.injEq] at h
    rw [← h.2.1]
    exact ⟨rfl, rfl⟩
  next hfast =>
    split at h
    next => cases h
    next val rest hst =>
      try dsimp only at h
      split at h
      next => cases h
      next r ca ma halloc =>
        obtain ⟨e1, e2⟩ := CodeGenContext.allocFor_reach _ m named val.ty r ca ma halloc
        split at h
        next ty slot =>
          by_cases hoff : slot.offset = ma.sp
          case neg => rw [if_neg hoff] at h; cases h
          rw [if_pos hoff] at h
          simp only [Option.some_inj, Prod.mk.injEq] at h
          rw [← h.2.1]
          exact ⟨e1, e2⟩
        next v hne =>
          split at h
          next => cases h
          next m2 hmove =>
            simp only [Option.some_inj, Prod.mk.injEq] at h
            rw [← h.2.1]
            cases val <;> exact ⟨e1, e2⟩

lemma CodeGenContext.unop_reach (c : CodeGenContext) (m : Masm) (sz : OperandSize)
    (emit : Masm → Reg → OperandSize → TypedReg × Masm)
    (c1 : CodeGenContext) (m1 : Masm) (h : c.unop m sz emit = some (c1, m1)) :
    c1.reachable = c.reachable ∧ c1.frame = c.frame := by
  unfold CodeGenContext.unop at h
  split at h
  next => cases h
  next tr ca ma hpop =>
    simp only [Option.some_inj, Prod.mk.injEq] at h
    rw [← h.1]
    exact CodeGenContext.popToReg_reach c m none tr ca ma hpop

lemma CodeGenContext.binop_reach (c : CodeGenContext) (m : Masm) (sz : OperandSize)
    (emit : Masm → Reg → Reg → OperandSize → TypedReg × Masm)
    (c1 : CodeGenContext) (m1 : Masm) (h : c.binop m sz emit = some (c1, m1)) :
    c1.reachable = c.reachable ∧ c1.frame = c.frame := by
  unfold CodeGenContext.binop at h
  split at h
  next => cases h
  next src ca ma hpop1 =>
    split at h
    next => cases h
    next d0 cb mb hpop2 =>
      simp only [Option.some_inj, Prod.mk.injEq] at h
      rw [← h.1]
      obtain ⟨e1, e2⟩ := CodeGenContext.popToReg_reach c m none src ca ma hpop1
      obtain ⟨f1, f2⟩ := CodeGenContext.popToReg_reach ca ma none d0 cb mb hpop2
      exact ⟨f1.trans e1, f2.trans e2⟩

lemma CodeGenContext.i32binop_reach (c : CodeGenContext) (m : Masm)
    (emit : Masm → Reg → RegImm → OperandSize → TypedReg × Masm)
    (c1 : CodeGenContext) (m1 : Masm) (h : c.i32binop m emit = some (c1, m1)) :
    c1.reachable = c.reachable ∧ c1.frame = c.frame := by
  unfold CodeGenContext.i32binop at h
  split at h
  next v rest hst =>
    try dsimp only at h
    split at h
    next => cases h
    next tr ca ma hpop =>
      simp only [Option.some_inj, Prod.mk.injEq] at h
      rw [← h.1]
      obtain ⟨e1, e2⟩ := CodeGenContext.popToReg_reach _ m none tr ca ma hpop
      exact ⟨e1, e2⟩
  next hne hst =>
    exact CodeGenContext.binop_reach c m .S32 _ c1 m1 h
  next => cases h

lemma CodeGenContext.i64binop_reach (c : CodeGenContext) (m : Masm)
    (emit : Masm → Reg → RegImm → OperandSize → TypedReg × Masm)
    (c1 : CodeGenContext) (m1 : Masm) (h : c.i64binop m emit = some (c1, m1)) :
    c1.reachable = c.reachable ∧ c1.frame = c.frame := by
  unfold CodeGenContext.i64binop at h
  split at h
  next v rest hst =>
    try dsimp only at h
    split at h
    next => cases h
    next tr ca ma hpop =>
      simp only [Option.some_inj, Prod.mk.injEq] at h
      rw [← h.1]
      obtain ⟨e1, e2⟩ := CodeGenContext.popToReg_reach _ m none tr ca ma hpop
      exact ⟨e1, e2⟩
  next hne hst =>
    exact CodeGenContext.binop_reach c m .S64 _ c1 m1 h
  next => cases h

lemma CodeGenContext.dropLast_reach (c : CodeGenContext) (n : Nat)
    (f : RegAlloc → Val → RegAlloc) (c1 : CodeGenContext)
    (h : c.dropLastOp n f = some c1) :
    c1.reachable = c.reachable ∧ c1.frame = c.frame := by
  unfold CodeGenContext.dropLastOp at h
  split_ifs at h
  · rw [← Option.some_inj.mp h]
    exact ⟨rfl, rfl⟩
  · rw [← Option.some_inj.mp h]
    exact ⟨rfl, rfl⟩

lemma CodeGenContext.truncate_reach (c : CodeGenContext) (tgt : Nat)
    (c1 : CodeGenContext) (h : c.truncateStackTo tgt = some c1) :
    c1.reachable = c.reachable ∧ c1.frame = c.frame := by
  unfold CodeGenContext.truncateStackTo at h
  split_ifs at h
  · exact CodeGenContext.dropLast_reach c _ freeVal c1 h
  · rw [← Option.some_inj.mp h]
    exact ⟨rfl, rfl⟩

lemma CodeGenContext.pushAbiGo_reach :
    ∀ (ops : List ABIOperand) (c : CodeGenContext) (m : Masm) (area : Option RetArea)
      (c1 : CodeGenContext) (m1 : Masm),
      CodeGenContext.pushAbiGo ops c m area = some (c1, m1) →
      c1.reachable = c.reachable ∧ c1.frame = c.frame := by
  intro ops
  induction ops with
  | nil =>
    intro c m area c1 m1 h
    simp only [CodeGenContext.pushAbiGo, Option.some_inj, Prod.mk.injEq] at h
    rw [← h.1]
    exact ⟨rfl, rfl⟩
  | cons op rest ih =>
    intro c m area c1 m1 h
    cases op with
    | reg r ty =>
      simp only [CodeGenContext.pushAbiGo] at h
      split_ifs at h with hav
      split at h
      next => cases h
      next r2 ca ma hreg =>
        obtain ⟨e1, e2⟩ := CodeGenContext.reg_reach c m r r2 ca ma hreg
        obtain ⟨f1, f2⟩ := ih _ ma area c1 m1 h
        exact ⟨f1.trans e1, f2.trans e2⟩
    | stack ty off sz =>
      simp only [CodeGenContext.pushAbiGo] at h
      split at h
      next spOff =>
        obtain ⟨f1, f2⟩ := ih _ m _ c1 m1 h
        exact ⟨f1, f2⟩
      next => cases h
      next => cases h

lemma CodeGenContext.pushAbiResults_reach (c : CodeGenContext) (results : ABIResults)
    (m : Masm)
    (calcRet : ABIResults → CodeGenContext → Masm → Option RetArea × CodeGenContext × Masm)
    (c1 : CodeGenContext) (m1 : Masm)
    (hcalc : ∀ c0 m0, (calcRet results c0 m0).2.1.reachable = c0.reachable)
    (h : c.pushAbiResults results m calcRet = some (c1, m1)) :
    c1.reachable = c.reachable := by
  unfold CodeGenContext.pushAbiResults at h
  split_ifs at h
  · dsimp only at h
    split at h
    next => cases h
    next ra hra =>
      exact (CodeGenContext.pushAbiGo_reach _ _ _ _ c1 m1 h).1.trans (hcalc c m)
  · exact (CodeGenContext.pushAbiGo_reach _ _ _ _ c1 m1 h).1

/-- C9: Reachability mutation discipline — the reachability flag is
initialized to `true` by `CodeGenContext::new`; register allocation,
`pop_to_reg`, the operation helpers, `free_reg`, spilling, `drop_last`,
`truncate_stack_to` and `push_abi_results` (whose caller-supplied
return-area callback leaves the flag alone) never change it; and
`unconditional_jump` sets it to `false`. -/
theorem c9_reachability_discipline :
    (∀ (ra : RegAlloc) (st : List Val) (fr : Frame),
      (CodeGenContext.new ra st fr).reachable = true)
    ∧ (∀ (c : CodeGenContext) (m : Masm) (r : Reg) out,
        c.reg m r = some out → out.2.1.reachable = c.reachable)
    ∧ (∀ (c : CodeGenContext) (m : Masm) (cls : RegClass) out,
        c.regForClass m cls = some out → out.2.1.reachable = c.reachable)
    ∧ (∀ (c : CodeGenContext) (r : Reg), (c.freeReg r).reachable = c.reachable)
    ∧ (∀ (c : CodeGenContext) (m : Masm) out,
        c.spill m = some out → out.1.reachable = c.reachable)
    ∧ (∀ (c : CodeGenContext) (m : Masm) (named : Option Reg) out,
        c.popToReg m named = some out → out.2.1.reachable = c.reachable)
    ∧ (∀ (c : CodeGenContext) (m : Masm) (sz : OperandSize)
        (emit : Masm → Reg → OperandSize → TypedReg × Masm) out,
        c.unop m sz emit = some out → out.1.reachable = c.reachable)
    ∧ (∀ (c : CodeGenContext) (m : Masm) (sz : OperandSize)
        (emit : Masm → Reg → Reg → OperandSize → TypedReg × Masm) out,
        c.binop m sz emit = some out → out.1.reachable = c.reachable)
    ∧ (∀ (c : CodeGenContext) (m : Masm)
        (emit : Masm → Reg → RegImm → OperandSize → TypedReg × Masm) out,
        c.i32binop m emit = some out → out.1.reachable = c.reachable)
    ∧ (∀ (c : CodeGenContext) (m : Masm)
        (emit : Masm → Reg → RegImm → OperandSize → TypedReg × Masm) out,
        c.i64binop m emit = some out → out.1.reachable = c.reachable)
    ∧ (∀ (c : CodeGenContext) (n : Nat) (f : RegAlloc → Val → RegAlloc) out,
        c.dropLastOp n f = some out → out.reachable = c.reachable)
    ∧ (∀ (c : CodeGenContext) (tgt : Nat) out,
        c.truncateStackTo tgt = some out → out.reachable = c.reachable)
    ∧ (∀ (c : CodeGenContext) (results : ABIResults) (m : Masm)
        (calcRet : ABIResults → CodeGenContext → Masm →
                   Option RetArea × CodeGenContext × Masm) out,
        (∀ c0 m0, (calcRet results c0 m0).2.1.reachable = c0.reachable) →
        c.pushAbiResults results m calcRet = some out → out.1.reachable = c.reachable)
    ∧ (∀ (c : CodeGenContext) (dest : ControlStackFrame) (m : Masm)
        (f : Masm → CodeGenContext → ControlStackFrame →
             Masm × CodeGenContext × ControlStackFrame) out,
        c.unconditionalJump dest m f = some out → out.1.reachable = false) := by
  refine ⟨fun ra st fr => rfl, ?_, ?_, fun c r => rfl, ?_, ?_, ?_, ?_, ?_, ?_, ?_, ?_, ?_, ?_⟩
  · rintro c m r ⟨r', c1, m1⟩ h
    exact (CodeGenContext.reg_reach c m r r' c1 m1 h).1
  · rintro c m cls ⟨r, c1, m1⟩ h
    exact (CodeGenContext.regForClass_reach c m cls r c1 m1 h).1
  · rintro c m ⟨c1, m1⟩ h
    exact (CodeGenContext.spill_reach c m c1 m1 h).1
  · rintro c m named ⟨tr, c1, m1⟩ h
    exact (CodeGenContext.popToReg_reach c m named tr c1 m1 h).1
  · rintro c m sz emit ⟨c1, m1⟩ h
    exact (CodeGenContext.unop_reach c m sz emit c1 m1 h).1
  · rintro c m sz emit ⟨c1, m1⟩ h
    exact (CodeGenContext.binop_reach c m sz emit c1 m1 h).1
  · rintro c m emit ⟨c1, m1⟩ h
    exact (CodeGenContext.i32binop_reach c m emit c1 m1 h).1
  · rintro c m emit ⟨c1, m1⟩ h
    exact (CodeGenContext.i64binop_reach c m emit c1 m1 h).1
  · intro c n f out h
    exact (CodeGenContext.dropLast_reach c n f out h).1
  · intro c tgt out h
    exact (CodeGenContext.truncate_reach c tgt out h).1
  · rintro c results m calcRet ⟨c1, m1⟩ hcalc h
    exact CodeGenContext.pushAbiResults_reach c results m calcRet c1 m1 hcalc h
  · rintro c dest m f ⟨c1, m1, d1⟩ h
    unfold CodeGenContext.unconditionalJump at h
    dsimp only at h
    split_ifs at h
    simp only [Option.some_inj, Prod.mk.injEq] at h
    rw [← h.1]

/-- Witness for C9: a fresh context is reachable, and a concrete
unconditional jump (from stack-pointer offset 8 to a frame with base 4 and
target 2) leaves reachability false. -/
theorem c9_reachability_discipline_witness :
    (CodeGenContext.new ⟨[]⟩ [] ⟨[]⟩).reachable = true
    ∧ ((CodeGenContext.unconditionalJump ⟨⟨[]⟩, [], ⟨[]⟩, true⟩ ⟨4, 2, false, 7⟩
          ⟨8, [], [], [], []⟩ (fun m c d => (m, c, d))).map
        (fun out => out.1.reachable)) = some false := by
  refine ⟨c9_reachability_discipline.1 ⟨[]⟩ [] ⟨[]⟩, ?_⟩
  have hj : CodeGenContext.unconditionalJump ⟨⟨[]⟩, [], ⟨[]⟩, true⟩ ⟨4, 2, false, 7⟩
      ⟨8, [], [], [], []⟩ (fun m c d => (m, c, d)) =
      some (⟨⟨[]⟩, [], ⟨[]⟩, false⟩, ⟨2, [], [], [], [.ensureSp 2, .jmp 7]⟩,
            ⟨4, 2, true, 7⟩) := by decide
  have h2 := c9_reachability_discipline.2.2.2.2.2.2.2.2.2.2.2.2.2 ⟨⟨[]⟩, [], ⟨[]⟩, true⟩
    ⟨4, 2, false, 7⟩ ⟨8, [], [], [], []⟩ (fun m c d => (m, c, d)) _ hj
  conv_lhs => rw [hj]
  exact congrArg some h2

/-- C2: Unconditional jump balancing — a successful `unconditional_jump`
requires (asserts) that the stack-pointer offset is at least the
destination frame's recorded base offset before the finalization callback
runs; afterwards the stack-pointer offset equals the destination's target
offset exactly, the destination is marked as a jump target, the emitted
instruction stream ends with the jump to the destination's label, the
reachability flag is false, and the abstract operand stack is exactly
whatever the callback left (not truncated by the jump itself). -/
theorem c2_unconditional_jump_balancing (c : CodeGenContext)
    (dest : ControlStackFrame) (m : Masm)
    (f : Masm → CodeGenContext → ControlStackFrame →
         Masm × CodeGenContext × ControlStackFrame)
    (c' : CodeGenContext) (m' : Masm) (d' : ControlStackFrame)
    (h : c.unconditionalJump dest m f = some (c', m', d')) :
    dest.baseOffset ≤ m.sp
    ∧ m'.sp = dest.targetOffset
    ∧ d'.isTarget = true
    ∧ m'.trace.getLast? = some (.jmp d'.label)
    ∧ c'.reachable = false
    ∧ c'.stack = (f m c dest).2.1.stack := by
  unfold CodeGenContext.unconditionalJump at h
  dsimp only at h
  split_ifs at h with hb
  simp only [Option.some_inj, Prod.mk.injEq] at h
  obtain ⟨h1, h2, h3⟩ := h
  subst h1; subst h2; subst h3
  refine ⟨hb, rfl, rfl, ?_, rfl, rfl⟩
  simp only [Masm.emitJmp, Masm.ensureSpForJump]
  exact getLast?_append_one _ _

/-- Witness for C2 at a concrete jump: from offset 8 to base 4 / target 2
with an identity callback. -/
theorem c2_unconditional_jump_balancing_witness :
    (4 : Nat) ≤ 8
    ∧ ((CodeGenContext.unconditionalJump ⟨⟨[]⟩, [Val.I32 3], ⟨[]⟩, true⟩ ⟨4, 2, false, 7⟩
          ⟨8, [], [], [], []⟩ (fun m c d => (m, c, d))).map
        (fun out => (out.2.1.sp, out.2.2.isTarget, out.1.reachable, out.1.stack))) =
      some (2, true, false, [Val.I32 3]) := by
  constructor
  · have hj : CodeGenContext.unconditionalJump ⟨⟨[]⟩, [Val.I32 3], ⟨[]⟩, true⟩
        ⟨4, 2, false, 7⟩ ⟨8, [], [], [], []⟩ (fun m c d => (m, c, d)) =
        some (⟨⟨[]⟩, [Val.I32 3], ⟨[]⟩, false⟩, ⟨2, [], [], [], [.ensureSp 2, .jmp 7]⟩,
              ⟨4, 2, true, 7⟩) := by decide
    exact (c2_unconditional_jump_balancing _ _ _ _ _ _ _ hj).1
  · decide

/-- Per-index characterization of a successful spill: index 0 is the stack
top; the drop-suffix sums give each converted entry its physical offset. -/
lemma spillList_index (fr : Frame) :
    ∀ (s : List Val) (ra : RegAlloc) (m : Masm) (s' : List Val) (ra' : RegAlloc) (m' : Masm),
      spillList fr s ra m = some (s', ra', m') →
        (∀ (i : Nat) (v : Val), s[i]? = some v → v.isReg = false → v.isLocalRef = false →
          s'[i]? = some v)
        ∧ (∀ (i : Nat) (tr : TypedReg), s[i]? = some (Val.Reg tr) →
            s'[i]? = some (Val.Memory tr.ty
              ⟨m.sp + sumSp fr (s.drop (i + 1)) + tr.ty.size, tr.ty.size⟩)
            ∧ tr.reg ∈ ra'.free ∧ Inst.push tr.reg tr.ty.size ∈ m'.trace)
        ∧ (∀ (i : Nat) (lty : WasmType) (idx : Nat), s[i]? = some (Val.Local lty idx) →
            ∃ lslot, fr.getLocal idx = some lslot ∧
              s'[i]? = some (Val.Memory lslot.ty
                ⟨m.sp + sumSp fr (s.drop (i + 1)) + lslot.ty.size, lslot.ty.size⟩)) := by
  intro s
  induction s with
  | nil =>
    intro ra m s' ra' m' h
    simp only [spillList, Option.some_inj, Prod.mk.injEq] at h
    obtain ⟨h1, h2, h3⟩ := h
    subst h1; subst h2; subst h3
    refine ⟨?_, ?_, ?_⟩ <;> intro i <;> simp
  | cons v rest ih =>
    intro ra m s' ra' m' h
    have hspec := spillList_spec fr rest ra m
    cases v with
    | Reg tr0 =>
      simp only [spillList] at h
      cases hrec : spillList fr rest ra m with
      | none => rw [hrec] at h; cases h
      | some t =>
        obtain ⟨rest', ra1, m1⟩ := t
        rw [hrec] at h
        simp only [Option.map_some', Option.some_inj, Prod.mk.injEq] at h
        obtain ⟨h1, h2, h3⟩ := h
        subst h1; subst h2; subst h3
        obtain ⟨ih2, ih3, ih4⟩ := ih ra m rest' ra1 m1 hrec
        obtain ⟨_, sp2, _, _, sp5, _⟩ := hspec rest' ra1 m1 hrec
        refine ⟨?_, ?_, ?_⟩
        · intro i w hw hr hl
          cases i with
          | zero =>
            simp only [List.getElem?_cons_zero, Option.some_inj] at hw
            subst hw
            simp [Val.isReg] at hr
          | succ j =>
            simp only [List.getElem?_cons_succ] at hw ⊢
            exact ih2 j w hw hr hl
        · intro i tr hw
          cases i with
          | zero =>
            simp only [List.getElem?_cons_zero, Option.some_inj] at hw
            injection hw with hw
            subst hw
            simp only [List.getElem?_cons_zero, List.drop_succ_cons, List.drop_zero]
            refine ⟨?_, ?_, ?_⟩
            · simp only [Masm.pushToStack, Option.some_inj]
              rw [sp5]
            · rw [RegAlloc.mem_freeReg]
              exact Or.inl rfl
            · simp [Masm.pushToStack]
          | succ j =>
            simp only [List.getElem?_cons_succ, List.drop_succ_cons] at hw ⊢
            obtain ⟨b1, b2, b3⟩ := ih3 j tr hw
            refine ⟨b1, ?_, ?_⟩
            · rw [RegAlloc.mem_freeReg]
              exact Or.inr b2
            · simp only [Masm.pushToStack, List.mem_append]
              exact Or.inl b3
        · intro i lty idx hw
          cases i with
          | zero => simp at hw
          | succ j =>
            simp only [List.getElem?_cons_succ, List.drop_succ_cons] at hw ⊢
            exact ih4 j lty idx hw
    | Local lty0 idx0 =>
      simp only [spillList] at h
      cases hloc : fr.getLocal idx0 with
      | none => rw [hloc] at h; cases h
      | some lslot0 =>
        rw [hloc] at h
        cases hrec : spillList fr rest ra m with
        | none => rw [hrec] at h; cases h
        | some t =>
          obtain ⟨rest', ra1, m1⟩ := t
          rw [hrec] at h
          simp only [Option.map_some', Option.some_inj, Prod.mk.injEq] at h
          obtain ⟨h1, h2, h3⟩ := h
          subst h1; subst h2; subst h3
          obtain ⟨ih2, ih3, ih4⟩ := ih ra m rest' ra1 m1 hrec
          obtain ⟨_, sp2, _, _, sp5, _⟩ := hspec rest' ra1 m1 hrec
          refine ⟨?_, ?_, ?_⟩
          · intro i w hw hr hl
            cases i with
            | zero =>
              simp only [List.getElem?_cons_zero, Option.some_inj] at hw
              subst hw
              simp [Val.isLocalRef] at hl
            | succ j =>
              simp only [List.getElem?_cons_succ] at hw ⊢
              exact ih2 j w hw hr hl
          · intro i tr hw
            cases i with
            | zero => simp at hw
            | succ j =>
              simp only [List.getElem?_cons_succ, List.drop_succ_cons] at hw ⊢
              obtain ⟨b1, b2, b3⟩ := ih3 j tr hw
              refine ⟨b1, b2, ?_⟩
              simp only [Masm.pushToStack, Masm.loadLocal, List.mem_append]
              exact Or.inl (Or.inl b3)
          · intro i lty idx hw
            cases i with
            | zero =>
              simp only [List.getElem?_cons_zero, Option.some_inj] at hw
              injection hw with hw1 hw2
              subst hw1; subst hw2
              refine ⟨lslot0, hloc, ?_⟩
              simp only [List.getElem?_cons_zero, List.drop_succ_cons, List.drop_zero,
                         Masm.pushToStack, Masm.loadLocal, Option.some_inj]
              rw [sp5]
            | succ j =>
              simp only [List.getElem?_cons_succ, List.drop_succ_cons] at hw ⊢
              exact ih4 j lty idx hw
    | I32 n =>
      simp only [spillList] at h
      cases hrec : spillList fr rest ra m with
      | none => rw [hrec] at h; cases h
      | some t =>
        obtain ⟨rest', ra1, m1⟩ := t
        rw [hrec] at h
        simp only [Option.map_some', Option.some_inj, Prod.mk.injEq] at h
        obtain ⟨h1, h2, h3⟩ := h
        subst h1; subst h2; subst h3
        obtain ⟨ih2, ih3, ih4⟩ := ih ra m rest' ra1 m1 hrec
        refine ⟨?_, ?_, ?_⟩
        · intro i w hw hr hl
          cases i with
          | zero =>
            simp only [List.getElem?_cons_zero, Option.some_inj] at hw
            subst hw
            simp
          | succ j =>
            simp only [List.getElem?_cons_succ] at hw ⊢
            exact ih2 j w hw hr hl
        · intro i tr hw
          cases i with
          | zero => simp at hw
          | succ j =>
            simp only [List.getElem?_cons_succ, List.drop_succ_cons] at hw ⊢
            exact ih3 j tr hw
        · intro i lty idx hw
          cases i with
          | zero => simp at hw
          | succ j =>
            simp only [List.getElem?_cons_succ, List.drop_succ_cons] at hw ⊢
            exact ih4 j lty idx hw
    | I64 n =>
      simp only [spillList] at h
      cases hrec : spillList fr rest ra m with
      | none => rw [hrec] at h; cases h
      | some t =>
        obtain ⟨rest', ra1, m1⟩ := t
        rw [hrec] at h
        simp only [Option.map_some', Option.some_inj, Prod.mk.injEq] at h
        obtain ⟨h1, h2, h3⟩ := h
        subst h1; subst h2; subst h3
        obtain ⟨ih2, ih3, ih4⟩ := ih ra m rest' ra1 m1 hrec
        refine ⟨?_, ?_, ?_⟩
        · intro i w hw hr hl
          cases i with
          | zero =>
            simp only [List.getElem?_cons_zero, Option.some_inj] at hw
            subst hw
            simp
          | succ j =>
            simp only [List.getElem?_cons_succ] at hw ⊢
            exact ih2 j w hw hr hl
        · intro i tr hw
          cases i with
          | zero => simp at hw
          | succ j =>
            simp only [List.getElem?_cons_succ, List.drop_succ_cons] at hw ⊢
            exact ih3 j tr hw
        · intro i lty idx hw
          cases i with
          | zero => simp at hw
          | succ j =>
            simp only [List.getElem?_cons_succ, List.drop_succ_cons] at hw ⊢
            exact ih4 j lty idx hw
    | F32 n =>
      simp only [spillList] at h
      cases hrec : spillList fr rest ra m with
      | none => rw [hrec] at h; cases h
      | some t =>
        obtain ⟨rest', ra1, m1⟩ := t
        rw [hrec] at h
        simp only [Option.map_some', Option.some_inj, Prod.mk.injEq] at h
        obtain ⟨h1, h2, h3⟩ := h
        subst h1; subst h2; subst h3
        obtain ⟨ih2, ih3, ih4⟩ := ih ra m rest' ra1 m1 hrec
        refine ⟨?_, ?_, ?_⟩
        · intro i w hw hr hl
          cases i with
          | zero =>
            simp only [List.getElem?_cons_zero, Option.some_inj] at hw
            subst hw
            simp
          | succ j =>
            simp only [List.getElem?_cons_succ] at hw ⊢
            exact ih2 j w hw hr hl
        · intro i tr hw
          cases i with
          | zero => simp at hw
          | succ j =>
            simp only [List.getElem?_cons_succ, List.drop_succ_cons] at hw ⊢
            exact ih3 j tr hw
        · intro i lty idx hw
          cases i with
          | zero => simp at hw
          | succ j =>
            simp only [List.getElem?_cons_succ, List.drop_succ_cons] at hw ⊢
            exact ih4 j lty idx hw
    | F64 n =>
      simp only [spillList] at h
      cases hrec : spillList fr rest ra m with
      | none => rw [hrec] at h; cases h
      | some t =>
        obtain ⟨rest', ra1, m1⟩ := t
        rw [hrec] at h
        simp only [Option.map_some', Option.some_inj, Prod.mk.injEq] at h
        obtain ⟨h1, h2, h3⟩ := h
        subst h1; subst h2; subst h3
        obtain ⟨ih2, ih3, ih4⟩ := ih ra m rest' ra1 m1 hrec
        refine ⟨?_, ?_, ?_⟩
        · intro i w hw hr hl
          cases i with
          | zero =>
            simp only [List.getElem?_cons_zero, Option.some_inj] at hw
            subst hw
            simp
          | succ j =>
            simp only [List.getElem?_cons_succ] at hw ⊢
            exact ih2 j w hw hr hl
        · intro i tr hw
          cases i with
          | zero => simp at hw
          | succ j =>
            simp only [List.getElem?_cons_succ, List.drop_succ_cons] at hw ⊢
            exact ih3 j tr hw
        · intro i lty idx hw
          cases i with
          | zero => simp at hw
          | succ j =>
            simp only [List.getElem?_cons_succ, List.drop_succ_cons] at hw ⊢
            exact ih4 j lty idx hw
    | Memory mty slot =>
      simp only [spillList] at h
      cases hrec : spillList fr rest ra m with
      | none => rw [hrec] at h; cases h
      | some t =>
        obtain ⟨rest', ra1, m1⟩ := t
        rw [hrec] at h
        simp only [Option.map_some', Option.some_inj, Prod.mk.injEq] at h
        obtain ⟨h1, h2, h3⟩ := h
        subst h1; subst h2; subst h3
        obtain ⟨ih2, ih3, ih4⟩ := ih ra m rest' ra1 m1 hrec
        refine ⟨?_, ?_, ?_⟩
        · intro i w hw hr hl
          cases i with
          | zero =>
            simp only [List.getElem?_cons_zero, Option.some_inj] at hw
            subst hw
            simp
          | succ j =>
            simp only [List.getElem?_cons_succ] at hw ⊢
            exact ih2 j w hw hr hl
        · intro i tr hw
          cases i with
          | zero => simp at hw
          | succ j =>
            simp only [List.getElem?_cons_succ, List.drop_succ_cons] at hw ⊢
            exact ih3 j tr hw
        · intro i lty idx hw
          cases i with
          | zero => simp at hw
          | succ j =>
            simp only [List.getElem?_cons_succ, List.drop_succ_cons] at hw ⊢
            exact ih4 j lty idx hw

/-- C3: Spill protocol transformation — one successful spill preserves the
stack length and the frame's local storage, grows the stack pointer by the
total spilled size, leaves immediate and memory entries unchanged at their
positions, replaces every register-resident entry at position `i` (position
0 being the stack top) by a memory entry whose recorded offset is that of
the physical push emitted for it (the pushes happen bottom-to-top, so the
offset is the base stack pointer plus the spilled sizes of all entries from
position `i` downwards), freeing that register in the allocator, and
replaces every local-reference entry by a memory entry produced by loading
the local through the scratch register and pushing it. -/
theorem c3_spill_protocol (fr : Frame) (s : List Val) (ra : RegAlloc) (m : Masm)
    (s' : List Val) (ra' : RegAlloc) (m' : Masm)
    (h : spillList fr s ra m = some (s', ra', m')) :
    s'.length = s.length
    ∧ m'.sp = m.sp + sumSp fr s
    ∧ m'.localMem = m.localMem
    ∧ (∀ (i : Nat) (v : Val), s[i]? = some v → v.isReg = false → v.isLocalRef = false →
        s'[i]? = some v)
    ∧ (∀ (i : Nat) (tr : TypedReg), s[i]? = some (Val.Reg tr) →
        s'[i]? = some (Val.Memory tr.ty
          ⟨m.sp + sumSp fr (s.drop (i + 1)) + tr.ty.size, tr.ty.size⟩)
        ∧ tr.reg ∈ ra'.free ∧ Inst.push tr.reg tr.ty.size ∈ m'.trace)
    ∧ (∀ (i : Nat) (lty : WasmType) (idx : Nat), s[i]? = some (Val.Local lty idx) →
        ∃ lslot, fr.getLocal idx = some lslot ∧
          s'[i]? = some (Val.Memory lslot.ty
            ⟨m.sp + sumSp fr (s.drop (i + 1)) + lslot.ty.size, lslot.ty.size⟩)) := by
  obtain ⟨a1, a2, a3, a4, a5, a6, a7⟩ := spillList_spec fr s ra m s' ra' m' h
  obtain ⟨b1, b2, b3⟩ := spillList_index fr s ra m s' ra' m' h
  exact ⟨a4, a5, a6, b1, b2, b3⟩

/-- Witness for C3: spilling a three-entry stack (top: register-resident,
middle: immediate, bottom: local reference) on a concrete machine. -/
theorem c3_spill_protocol_witness :
    spillList (Frame.mk [LocalSlot.mk .I32 16])
        [Val.Reg (TypedReg.mk .I32 (Reg.mk .Int 7)), Val.I32 9, Val.Local .I32 0]
        (RegAlloc.mk []) (Masm.mk 0 [(Reg.mk .Int 7, 5)] [] [(16, 42)] []) =
      some ([Val.Memory .I32 (StackSlot.mk 8 4), Val.I32 9, Val.Memory .I32 (StackSlot.mk 4 4)],
            RegAlloc.mk [Reg.mk .Int 7],
            Masm.mk 8 [(Reg.mk .Int 1000, 42), (Reg.mk .Int 7, 5)] [(8, 5), (4, 42)]
              [(16, 42)]
              [Inst.loadLocal 16 (Reg.mk .Int 1000) 4, Inst.push (Reg.mk .Int 1000) 4,
               Inst.push (Reg.mk .Int 7) 4])
    ∧ ([Val.Memory .I32 (StackSlot.mk 8 4), Val.I32 9,
        Val.Memory .I32 (StackSlot.mk 4 4)] : List Val).length =
      ([Val.Reg (TypedReg.mk .I32 (Reg.mk .Int 7)), Val.I32 9,
        Val.Local .I32 0] : List Val).length := by
  have hW : spillList (Frame.mk [LocalSlot.mk .I32 16])
      [Val.Reg (TypedReg.mk .I32 (Reg.mk .Int 7)), Val.I32 9, Val.Local .I32 0]
      (RegAlloc.mk []) (Masm.mk 0 [(Reg.mk .Int 7, 5)] [] [(16, 42)] []) =
      some ([Val.Memory .I32 (StackSlot.mk 8 4), Val.I32 9, Val.Memory .I32 (StackSlot.mk 4 4)],
            RegAlloc.mk [Reg.mk .Int 7],
            Masm.mk 8 [(Reg.mk .Int 1000, 42), (Reg.mk .Int 7, 5)] [(8, 5), (4, 42)]
              [(16, 42)]
              [Inst.loadLocal 16 (Reg.mk .Int 1000) 4, Inst.push (Reg.mk .Int 1000) 4,
               Inst.push (Reg.mk .Int 7) 4]) := by decide
  exact ⟨hW, (c3_spill_protocol _ _ _ _ _ _ _ hW).1⟩

/-- C8: Spill idempotence — spilling a stack that holds no register-resident
and no local-reference entries is a complete no-op (stack, allocator and
machine state, including the stack-pointer offset, are unchanged), and
spilling twice in a row equals spilling once. -/
theorem c8_spill_idempotence (c : CodeGenContext) (m : Masm) :
    ((∀ v ∈ c.stack, v.isReg = false ∧ v.isLocalRef = false) → c.spill m = some (c, m))
    ∧ (∀ (c1 : CodeGenContext) (m1 : Masm), c.spill m = some (c1, m1) →
        c1.spill m1 = some (c1, m1)) := by
  constructor
  · intro hcl
    unfold CodeGenContext.spill
    rw [spillList_id c.frame c.stack c.regalloc m hcl]
  · intro c1 m1 h
    have hcl := (CodeGenContext.spill_spec c m c1 m1 h).2.2.2.2.2.2.2.2.2
    unfold CodeGenContext.spill
    rw [spillList_id c1.frame c1.stack c1.regalloc m1 hcl]

/-- Witness for C8: spilling a stack of one immediate and one memory entry
changes nothing. -/
theorem c8_spill_idempotence_witness :
    (∀ v ∈ (CodeGenContext.mk ⟨[⟨.Int, 0⟩]⟩ [Val.I32 1, Val.Memory .I32 ⟨4, 4⟩] ⟨[]⟩
              true).stack, v.isReg = false ∧ v.isLocalRef = false)
    ∧ (CodeGenContext.mk ⟨[⟨.Int, 0⟩]⟩ [Val.I32 1, Val.Memory .I32 ⟨4, 4⟩] ⟨[]⟩
        true).spill ⟨4, [], [(4, 3)], [], []⟩ =
      some (CodeGenContext.mk ⟨[⟨.Int, 0⟩]⟩ [Val.I32 1, Val.Memory .I32 ⟨4, 4⟩] ⟨[]⟩ true,
            ⟨4, [], [(4, 3)], [], []⟩) :=
  ⟨by decide,
   (c8_spill_idempotence (CodeGenContext.mk ⟨[⟨.Int, 0⟩]⟩
      [Val.I32 1, Val.Memory .I32 ⟨4, 4⟩] ⟨[]⟩ true) ⟨4, [], [(4, 3)], [], []⟩).1
     (by decide)⟩

/-- C7: `drop_last` frame and order property — for `0 < n ≤ L`, dropping the
top `n` entries succeeds, invokes the callback exactly once per dropped
entry by folding it over the top `n` entries in top-to-bottom order, and
truncates the stack to its remaining `L − n` entries unchanged and in
order; in particular, dropping the top 2 register-resident entries of a
5-entry stack with the register-freeing callback frees exactly those two
registers and leaves the other 3 entries untouched. -/
theorem c7_drop_last :
    (∀ (c : CodeGenContext) (n : Nat) (f : RegAlloc → Val → RegAlloc),
      0 < n → n ≤ c.stack.length →
      c.dropLastOp n f =
        some { c with stack := c.stack.drop n,
                      regalloc := (c.stack.take n).foldl f c.regalloc })
    ∧ (∀ (ra : RegAlloc) (fr : Frame) (rb : Bool) (v1 v2 v3 : Val) (t4 t5 : TypedReg)
        (c' : CodeGenContext),
        (CodeGenContext.mk ra [Val.Reg t5, Val.Reg t4, v1, v2, v3] fr rb).dropLastOp 2
          freeVal = some c' →
        c'.stack = [v1, v2, v3]
        ∧ (∀ x, x ∈ c'.regalloc.free ↔ x = t4.reg ∨ x = t5.reg ∨ x ∈ ra.free)) := by
  constructor
  · intro c n f hpos hle
    have h0 : ¬(n = 0) := by omega
    unfold CodeGenContext.dropLastOp
    rw [if_neg h0, if_pos hle]
  · intro ra fr rb v1 v2 v3 t4 t5 c' h
    have hcomp : (CodeGenContext.mk ra [Val.Reg t5, Val.Reg t4, v1, v2, v3] fr rb).dropLastOp 2
        freeVal =
        some (CodeGenContext.mk ((ra.freeReg t5.reg).freeReg t4.reg) [v1, v2, v3] fr rb) := rfl
    rw [hcomp] at h
    obtain hc := Option.some_inj.mp h
    subst hc
    exact ⟨rfl, fun x => by simp only [RegAlloc.mem_freeReg]⟩

/-- Witness for C7: dropping the single entry of a one-entry stack. -/
theorem c7_drop_last_witness :
    ((0 : Nat) < 1 ∧ 1 ≤ 1)
    ∧ (CodeGenContext.mk ⟨[]⟩ [Val.I32 3] ⟨[]⟩ true).dropLastOp 1 freeVal =
      some (CodeGenContext.mk ⟨[]⟩ [] ⟨[]⟩ true) :=
  ⟨⟨by decide, by decide⟩,
   by
     have hh := c7_drop_last.1 (CodeGenContext.mk ⟨[]⟩ [Val.I32 3] ⟨[]⟩ true) 1 freeVal
       (by decide) (by decide)
     exact hh.trans (by decide)⟩

/-- The stack entry `push_abi_results` pushes for one ABI operand, given
the resolved return area: register operands become register-resident
entries; stack operands become memory entries at
`return-area offset − operand offset`.  The default in the unmatched return
area cases is irrelevant: `push_abi_results` fails on them. -/
def expectedAbiVal (area : Option RetArea) : ABIOperand → Val
  | .reg r ty => .Reg ⟨ty, r⟩
  | .stack ty off sz =>
    match area with
    | some (.sp a) => .Memory ty ⟨a - off, sz⟩
    | _ => .I32 0

lemma pushAbiGo_stack_char :
    ∀ (ops : List ABIOperand) (c : CodeGenContext) (m : Masm) (area : Option RetArea)
      (c1 : CodeGenContext) (m1 : Masm),
      CodeGenContext.pushAbiGo ops c m area = some (c1, m1) →
      c1.stack = (ops.map (expectedAbiVal area)).reverse ++ c.stack := by
  intro ops
  induction ops with
  | nil =>
    intro c m area c1 m1 h
    simp only [CodeGenContext.pushAbiGo, Option.some_inj, Prod.mk.injEq] at h
    rw [← h.1]
    simp
  | cons op rest ih =>
    intro c m area c1 m1 h
    cases op with
    | reg r ty =>
      simp only [CodeGenContext.pushAbiGo] at h
      split_ifs at h with hav
      have hr : r ∈ c.regalloc.free := by
        simpa [RegAlloc.available] using hav
      have hreg : c.reg m r = some (r, { c with regalloc := c.regalloc.take r }, m) := by
        unfold CodeGenContext.reg
        rw [if_pos hr]
      rw [hreg] at h
      simp only at h
      have := ih _ m area c1 m1 h
      rw [this]
      simp [expectedAbiVal, List.reverse_cons, List.append_assoc]
    | stack ty off sz =>
      simp only [CodeGenContext.pushAbiGo] at h
      split at h
      next spOff =>
        have := ih _ m _ c1 m1 h
        rw [this]
        simp [expectedAbiVal, List.reverse_cons, List.append_assoc]
      next => cases h
      next => cases h

lemma pushAbiGo_noStack :
    ∀ (ops : List ABIOperand) (c : CodeGenContext) (m : Masm) (area : Option RetArea)
      (c1 : CodeGenContext) (m1 : Masm),
      CodeGenContext.pushAbiGo ops c m area = some (c1, m1) →
      (∀ a, area ≠ some (.sp a)) → ∀ op ∈ ops, op.isStack = false := by
  intro ops
  induction ops with
  | nil =>
    intro c m area c1 m1 h hne op hop
    cases hop
  | cons op rest ih =>
    intro c m area c1 m1 h hne op2 hop
    cases op with
    | reg r ty =>
      simp only [CodeGenContext.pushAbiGo] at h
      split_ifs at h with hav
      split at h
      next => cases h
      next r2 ca ma hreg =>
        rcases List.mem_cons.mp hop with rfl | hop2
        · rfl
        · exact ih _ ma area c1 m1 h hne op2 hop2
    | stack ty off sz =>
      simp only [CodeGenContext.pushAbiGo] at h
      split at h
      next spOff => exact absurd rfl (hne spOff)
      next => cases h
      next => cases h

/-- C6: `push_abi_results` placement and failure — on success, every result
operand is pushed (in operand order, so the first operand ends up deepest):
register-assigned operands as register-resident entries and stack-assigned
operands as memory entries at stack-pointer offset
`return-area offset − operand offset`, where the return area is the
SP-relative base produced by the caller-supplied callback (required to be
present and SP-relative whenever any result is stack-assigned); and if some
result is stack-assigned but the callback yields no return area, the call
fails fatally. -/
theorem c6_push_abi_results (c : CodeGenContext) (results : ABIResults) (m : Masm)
    (calcRet : ABIResults → CodeGenContext → Masm →
               Option RetArea × CodeGenContext × Masm) :
    (∀ (c' : CodeGenContext) (m' : Masm),
      c.pushAbiResults results m calcRet = some (c', m') →
      (results.onStack = true →
        ∃ a, (calcRet results c m).1 = some (.sp a) ∧
          c'.stack = (results.operands.map (expectedAbiVal (some (.sp a)))).reverse
                       ++ (calcRet results c m).2.1.stack)
      ∧ (results.onStack = false →
          c'.stack = (results.operands.map (expectedAbiVal none)).reverse ++ c.stack))
    ∧ (results.onStack = true → (calcRet results c m).1 = none →
        c.pushAbiResults results m calcRet = none) := by
  constructor
  · intro c' m' h
    constructor
    · intro hon
      unfold CodeGenContext.pushAbiResults at h
      rw [if_pos hon] at h
      dsimp only at h
      split at h
      next => cases h
      next ra hra =>
        have hon2 : ∃ op ∈ results.operands, ABIOperand.isStack op = true := by
          simpa [ABIResults.onStack, List.any_eq_true] using hon
        obtain ⟨op, hop, hops⟩ := hon2
        cases ra with
        | sp a =>
          exact ⟨a, hra, pushAbiGo_stack_char _ _ _ _ c' m' h⟩
        | slot k =>
          have := pushAbiGo_noStack _ _ _ _ c' m' h (fun a hq => by cases hq) op hop
          rw [this] at hops
          cases hops
    · intro hoff
      unfold CodeGenContext.pushAbiResults at h
      rw [if_neg (by rw [hoff]; exact Bool.false_ne_true)] at h
      exact pushAbiGo_stack_char _ _ _ _ c' m' h
  · intro hon hnone
    unfold CodeGenContext.pushAbiResults
    rw [if_pos hon]
    dsimp only
    rw [hnone]

/-- Witness for C6 (failure clause): a single stack-assigned result with a
callback that yields no return area makes the call fail. -/
theorem c6_push_abi_results_witness :
    (ABIResults.mk [ABIOperand.stack .I64 8 8]).onStack = true
    ∧ (CodeGenContext.mk ⟨[]⟩ [] ⟨[]⟩ true).pushAbiResults
        (ABIResults.mk [ABIOperand.stack .I64 8 8]) ⟨0, [], [], [], []⟩
        (fun _ c m => (none, c, m)) = none :=
  ⟨by decide,
   (c6_push_abi_results (CodeGenContext.mk ⟨[]⟩ [] ⟨[]⟩ true)
      (ABIResults.mk [ABIOperand.stack .I64 8 8]) ⟨0, [], [], [], []⟩
      (fun _ c m => (none, c, m))).2 (by decide) rfl⟩

lemma allocAll_spec :
    ∀ (regs : List Reg) (c : CodeGenContext) (m : Masm) (c1 : CodeGenContext) (m1 : Masm),
      Inv c → CodeGenContext.allocAll regs c m = some (c1, m1) →
      Inv c1
      ∧ (∀ x, x ∉ c.regalloc.free → x ∉ stackRegs c.stack →
          x ∉ c1.regalloc.free ∧ x ∉ stackRegs c1.stack)
      ∧ (∀ r ∈ regs, r ∉ c1.regalloc.free ∧ r ∉ stackRegs c1.stack) := by
  intro regs
  induction regs with
  | nil =>
    intro c m c1 m1 hInv h
    simp only [CodeGenContext.allocAll, Option.some_inj, Prod.mk.injEq] at h
    obtain ⟨h1, h2⟩ := h
    subst h1; subst h2
    exact ⟨hInv, fun x hx1 hx2 => ⟨hx1, hx2⟩, fun r hr => nomatch hr⟩
  | cons r rest ih =>
    intro c m c1 m1 hInv h
    simp only [CodeGenContext.allocAll] at h
    split at h
    next => cases h
    next r2 ca ma hreg =>
      obtain ⟨a0, a1, a2, a3, a4, a5, _⟩ := CodeGenContext.reg_spec c m r r2 ca ma hInv hreg
      obtain ⟨b1, b2, b3⟩ := ih ca ma c1 m1 a1 h
      have hpres : ∀ x, x ∉ c.regalloc.free → x ∉ stackRegs c.stack →
          x ∉ ca.regalloc.free ∧ x ∉ stackRegs ca.stack := by
        intro x hx1 hx2
        constructor
        · intro hc
          rcases a5 x hc with hq | hq
          · exact hx1 hq
          · exact hx2 hq
        · intro hc
          exact hx2 (a4 x hc)
      refine ⟨b1, ?_, ?_⟩
      · intro x hx1 hx2
        obtain ⟨p1, p2⟩ := hpres x hx1 hx2
        exact b2 x p1 p2
      · intro rr hrr
        rcases List.mem_cons.mp hrr with rfl | hrr2
        · exact b2 rr a2 a3
        · exact b3 rr hrr2

lemma foldl_ctxFreeReg_mem :
    ∀ (regs : List Reg) (c : CodeGenContext) (x : Reg),
      x ∈ (regs.foldl CodeGenContext.freeReg c).regalloc.free ↔
        x ∈ regs ∨ x ∈ c.regalloc.free := by
  intro regs
  induction regs with
  | nil => intro c x; simp
  | cons r rest ih =>
    intro c x
    simp only [List.foldl_cons]
    rw [ih]
    have : x ∈ (c.freeReg r).regalloc.free ↔ x = r ∨ x ∈ c.regalloc.free :=
      RegAlloc.mem_freeReg c.regalloc r x
    rw [this]
    simp only [List.mem_cons]
    tauto

/-- C10: `without` — allocating the listed registers (spilling as needed),
then running the callback, then freeing the listed registers: the listed
registers are all busy and unreferenced when the callback starts, the
result returned is exactly the callback's result (with the callback's
machine state), and on return every listed register is free in the
allocator. -/
theorem c10_without {T : Type} (c : CodeGenContext) (regs : List Reg) (m : Masm)
    (f : CodeGenContext → Masm → T × CodeGenContext × Masm)
    (c1 : CodeGenContext) (m1 : Masm) (hInv : Inv c)
    (h : CodeGenContext.allocAll regs c m = some (c1, m1)) :
    c.without regs m f =
      some ((f c1 m1).1, regs.foldl CodeGenContext.freeReg (f c1 m1).2.1, (f c1 m1).2.2)
    ∧ (∀ r ∈ regs, r ∉ c1.regalloc.free ∧ r ∉ stackRegs c1.stack)
    ∧ (∀ r ∈ regs,
        r ∈ (regs.foldl CodeGenContext.freeReg (f c1 m1).2.1).regalloc.free) := by
  refine ⟨?_, (allocAll_spec regs c m c1 m1 hInv h).2.2, ?_⟩
  · unfold CodeGenContext.without
    rw [h]
  · intro r hr
    exact (foldl_ctxFreeReg_mem regs (f c1 m1).2.1 r).mpr (Or.inl hr)

/-- Witness for C10: protecting one register around a pure callback. -/
theorem c10_without_witness :
    Inv (CodeGenContext.mk ⟨[Reg.mk .Int 3]⟩ [] ⟨[]⟩ true)
    ∧ (CodeGenContext.mk ⟨[Reg.mk .Int 3]⟩ [] ⟨[]⟩ true).without [Reg.mk .Int 3]
        ⟨0, [], [], [], []⟩ (fun c m => (42, c, m)) =
      some (42, CodeGenContext.mk ⟨[Reg.mk .Int 3]⟩ [] ⟨[]⟩ true, ⟨0, [], [], [], []⟩) := by
  constructor
  · decide
  · have hh := (c10_without (CodeGenContext.mk ⟨[Reg.mk .Int 3]⟩ [] ⟨[]⟩ true)
      [Reg.mk .Int 3] ⟨0, [], [], [], []⟩ (fun c m => ((42 : Nat), c, m))
      (CodeGenContext.mk ⟨[]⟩ [] ⟨[]⟩ true) ⟨0, [], [], [], []⟩ (by decide) (by decide)).1
    exact hh.trans (by decide)

/-- C4: Materialization guarantee of `pop_to_reg` — under register
exclusivity, a successful pop removes the popped value from the operand
stack (the stack shrinks by one and the result register is referenced by no
remaining entry) and the returned typed register is the unique owner of the
result (busy in the allocator); when the popped value is a memory entry its
recorded offset equals the assembler's stack-pointer offset at
materialization (the internal consistency assertion; in particular it
equals the entry offset when the remaining stack is already spilled) and
the value is materialized by an emitted physical-stack pop; when a
register-resident top is moved into a different named register the source
register is freed. -/
theorem c4_pop_to_reg (c : CodeGenContext) (m : Masm) (named : Option Reg)
    (tr : TypedReg) (c1 : CodeGenContext) (m1 : Masm) (hInv : Inv c)
    (h : c.popToReg m named = some (tr, c1, m1)) :
    Inv c1
    ∧ tr.reg ∉ c1.regalloc.free
    ∧ tr.reg ∉ stackRegs c1.stack
    ∧ (∀ x ∈ stackRegs c1.stack, x ∈ stackRegs c.stack)
    ∧ (∀ x ∈ c1.regalloc.free, x ∈ c.regalloc.free ∨ x ∈ stackRegs c.stack)
    ∧ (tr.reg ∈ c.regalloc.free ∨ tr.reg ∈ stackRegs c.stack)
    ∧ c1.stack.length + 1 = c.stack.length
    ∧ c1.frame = c.frame ∧ c1.reachable = c.reachable
    ∧ (∀ ty slot rest0, c.stack = .Memory ty slot :: rest0 →
        tr.ty = ty ∧ m1.sp = slot.offset - ty.size
        ∧ m1.trace.getLast? = some (.pop tr.reg ty.size))
    ∧ (∀ r0 trb rest0, named = some r0 → c.stack = .Reg trb :: rest0 → trb.reg ≠ r0 →
        trb.reg ∈ c1.regalloc.free)
    ∧ (∀ ty slot rest0, c.stack = .Memory ty slot :: rest0 →
        (∀ v ∈ rest0, v.isReg = false ∧ v.isLocalRef = false) → slot.offset = m.sp) :=
  CodeGenContext.popToReg_spec c m named tr c1 m1 hInv h

/-- Witness for C4: popping an immediate into a freshly allocated register. -/
theorem c4_pop_to_reg_witness :
    Inv (CodeGenContext.mk ⟨[Reg.mk .Int 1]⟩ [Val.I32 7] ⟨[]⟩ true)
    ∧ Inv (CodeGenContext.mk ⟨[]⟩ [] ⟨[]⟩ true) := by
  constructor
  · decide
  · have hW : (CodeGenContext.mk ⟨[Reg.mk .Int 1]⟩ [Val.I32 7] ⟨[]⟩ true).popToReg
        ⟨0, [], [], [], []⟩ none =
        some (TypedReg.mk .I32 (Reg.mk .Int 1), CodeGenContext.mk ⟨[]⟩ [] ⟨[]⟩ true,
              ⟨0, [(Reg.mk .Int 1, 7)], [], [], [Inst.movI 7 (Reg.mk .Int 1) 4]⟩) := by
      decide
    exact (c4_pop_to_reg _ _ _ _ _ _ (by decide) hW).1

/-- Computation of both emission paths of `i32_binop` when the stack top
is an immediate and the second operand is register-resident: the immediate
fast path emits one arithmetic instruction on the operand register; the
general path first materializes the constant into a freshly allocated
register, applies the register-register form, and frees the temporary. -/
lemma i32_imm_paths (f : Int → Int → Int) (c : CodeGenContext) (m : Masm) (v : Int)
    (tb : Reg) (rest : List Val) (r1 : Reg) (hInv : Inv c)
    (hs : c.stack = Val.I32 v :: Val.Reg ⟨.I32, tb⟩ :: rest)
    (hfind : c.regalloc.free.find? (fun x => decide (x.cls = RegClass.Int)) = some r1) :
    c.i32binop m (arithEmitRI f) =
      some ({ c with stack := Val.Reg ⟨.I32, tb⟩ :: rest },
            { m with regs := (tb, f (m.getReg tb) v) :: m.regs,
                     trace := m.trace ++ [.binArith tb (.imm v) 4] })
    ∧ c.binop m .S32 (fun mm d s szz => arithEmitRI f mm d (.reg s) szz) =
      some ({ c with regalloc := ⟨r1 :: c.regalloc.free.erase r1⟩,
                     stack := Val.Reg ⟨.I32, tb⟩ :: rest },
            { m with regs := (tb, f (m.getReg tb) v) :: (r1, v) :: m.regs,
                     trace := m.trace ++ [.movI v r1 4, .binArith tb (.reg r1) 4] }) := by
  have hr1mem : r1 ∈ c.regalloc.free := List.mem_of_find?_eq_some hfind
  have htbmem : tb ∈ stackRegs c.stack := by
    rw [hs, stackRegs_cons_of_not _ _ (by simp [Val.isReg]), stackRegs_cons_reg]
    exact List.mem_cons_self _ _
  have hneq : ¬(r1 = tb) := fun he => hInv.2.2 tb htbmem (he ▸ hr1mem)
  have hr1e : r1 ∉ c.regalloc.free.erase r1 := hInv.1.not_mem_erase
  constructor
  · simp only [CodeGenContext.i32binop, hs, CodeGenContext.popToReg, stackPopReg,
               arithEmitRI, OperandSize.intTy]
  · simp only [CodeGenContext.binop, CodeGenContext.popToReg, hs, stackPopReg,
               CodeGenContext.allocFor, CodeGenContext.regForType,
               CodeGenContext.regForClass, Val.ty, WasmType.cls, hfind,
               CodeGenContext.moveValToReg, Masm.movI, RegAlloc.take, arithEmitRI,
               Masm.getReg, lookupReg, OperandSize.intTy, CodeGenContext.freeReg,
               RegAlloc.freeReg, if_neg hneq, if_neg hr1e, List.append_assoc,
               List.singleton_append, List.cons_append, List.nil_append, if_pos,
               Option.some_inj, Prod.mk.injEq]
/-- Computation of both emission paths of `i64_binop` when the stack top
is an immediate and the second operand is register-resident: the immediate
fast path emits one arithmetic instruction on the operand register; the
general path first materializes the constant into a freshly allocated
register, applies the register-register form, and frees the temporary. -/
lemma i64_imm_paths (f : Int → Int → Int) (c : CodeGenContext) (m : Masm) (v : Int)
    (tb : Reg) (rest : List Val) (r1 : Reg) (hInv : Inv c)
    (hs : c.stack = Val.I64 v :: Val.Reg ⟨.I64, tb⟩ :: rest)
    (hfind : c.regalloc.free.find? (fun x => decide (x.cls = RegClass.Int)) = some r1) :
    c.i64binop m (arithEmitRI f) =
      some ({ c with stack := Val.Reg ⟨.I64, tb⟩ :: rest },
            { m with regs := (tb, f (m.getReg tb) v) :: m.regs,
                     trace := m.trace ++ [.binArith tb (.imm v) 8] })
    ∧ c.binop m .S64 (fun mm d s szz => arithEmitRI f mm d (.reg s) szz) =
      some ({ c with regalloc := ⟨r1 :: c.regalloc.free.erase r1⟩,
                     stack := Val.Reg ⟨.I64, tb⟩ :: rest },
            { m with regs := (tb, f (m.getReg tb) v) :: (r1, v) :: m.regs,
                     trace := m.trace ++ [.movI v r1 8, .binArith tb (.reg r1) 8] }) := by
  have hr1mem : r1 ∈ c.regalloc.free := List.mem_of_find?_eq_some hfind
  have htbmem : tb ∈ stackRegs c.stack := by
    rw [hs, stackRegs_cons_of_not _ _ (by simp [Val.isReg]), stackRegs_cons_reg]
    exact List.mem_cons_self _ _
  have hneq : ¬(r1 = tb) := fun he => hInv.2.2 tb htbmem (he ▸ hr1mem)
  have hr1e : r1 ∉ c.regalloc.free.erase r1 := hInv.1.not_mem_erase
  constructor
  · simp only [CodeGenContext.i64binop, hs, CodeGenContext.popToReg, stackPopReg,
               arithEmitRI, OperandSize.intTy]
  · simp only [CodeGenContext.binop, CodeGenContext.popToReg, hs, stackPopReg,
               CodeGenContext.allocFor, CodeGenContext.regForType,
               CodeGenContext.regForClass, Val.ty, WasmType.cls, hfind,
               CodeGenContext.moveValToReg, Masm.movI, RegAlloc.take, arithEmitRI,
               Masm.getReg, lookupReg, OperandSize.intTy, CodeGenContext.freeReg,
               RegAlloc.freeReg, if_neg hneq, if_neg hr1e, List.append_assoc,
               List.singleton_append, List.cons_append, List.nil_append, if_pos,
               Option.some_inj, Prod.mk.injEq]

/-- C5: Immediate fast-path equivalence — for every integer binary
operation with value semantics `f`, when the stack top is a 32-bit (resp.
64-bit) constant and the second operand is register-resident, the
immediate-operand path of `i32_binop` (resp. `i64_binop`) and the general
materialize-then-emit path (`binop` on the same stack, which loads the
constant into a freshly allocated register and applies the
register-register form) both succeed and are observably equivalent: same
resulting operand stack, same destination-register contents
(`f` applied to the operand and the constant), same stack-pointer offset,
stack memory, locals and reachability, equal allocator free sets, and equal
denotations of every remaining stack entry (the only difference is the
clobbered, freed temporary register). -/
theorem c5_immediate_fast_path_equivalence :
    (∀ (f : Int → Int → Int) (c : CodeGenContext) (m : Masm) (v : Int) (tb : Reg)
       (rest : List Val) (r1 : Reg), Inv c →
      c.stack = Val.I32 v :: Val.Reg ⟨.I32, tb⟩ :: rest →
      c.regalloc.free.find? (fun x => decide (x.cls = RegClass.Int)) = some r1 →
      ((c.i32binop m (arithEmitRI f)).isSome = true)
      ∧ ((c.binop m .S32 (fun mm d s szz => arithEmitRI f mm d (.reg s) szz)).isSome = true)
      ∧ (∀ (cf cs : CodeGenContext) (mf ms : Masm),
          c.i32binop m (arithEmitRI f) = some (cf, mf) →
          c.binop m .S32 (fun mm d s szz => arithEmitRI f mm d (.reg s) szz) =
            some (cs, ms) →
          cf.stack = Val.Reg ⟨.I32, tb⟩ :: rest
          ∧ cs.stack = cf.stack
          ∧ cf.regalloc = c.regalloc
          ∧ (∀ x, x ∈ cs.regalloc.free ↔ x ∈ c.regalloc.free)
          ∧ mf.sp = m.sp ∧ ms.sp = m.sp
          ∧ mf.getReg tb = f (m.getReg tb) v
          ∧ ms.getReg tb = mf.getReg tb
          ∧ mf.stackMem = m.stackMem ∧ ms.stackMem = m.stackMem
          ∧ mf.localMem = m.localMem ∧ ms.localMem = m.localMem
          ∧ (∀ w ∈ rest, denoteVal c.frame mf w = denoteVal c.frame ms w)
          ∧ cf.reachable = c.reachable ∧ cs.reachable = c.reachable
          ∧ cf.frame = c.frame ∧ cs.frame = c.frame))
    ∧ (∀ (f : Int → Int → Int) (c : CodeGenContext) (m : Masm) (v : Int) (tb : Reg)
        (rest : List Val) (r1 : Reg), Inv c →
      c.stack = Val.I64 v :: Val.Reg ⟨.I64, tb⟩ :: rest →
      c.regalloc.free.find? (fun x => decide (x.cls = RegClass.Int)) = some r1 →
      ((c.i64binop m (arithEmitRI f)).isSome = true)
      ∧ ((c.binop m .S64 (fun mm d s szz => arithEmitRI f mm d (.reg s) szz)).isSome = true)
      ∧ (∀ (cf cs : CodeGenContext) (mf ms : Masm),
          c.i64binop m (arithEmitRI f) = some (cf, mf) →
          c.binop m .S64 (fun mm d s szz => arithEmitRI f mm d (.reg s) szz) =
            some (cs, ms) →
          cf.stack = Val.Reg ⟨.I64, tb⟩ :: rest
          ∧ cs.stack = cf.stack
          ∧ cf.regalloc = c.regalloc
          ∧ (∀ x, x ∈ cs.regalloc.free ↔ x ∈ c.regalloc.free)
          ∧ mf.sp = m.sp ∧ ms.sp = m.sp
          ∧ mf.getReg tb = f (m.getReg tb) v
          ∧ ms.getReg tb = mf.getReg tb
          ∧ mf.stackMem = m.stackMem ∧ ms.stackMem = m.stackMem
          ∧ mf.localMem = m.localMem ∧ ms.localMem = m.localMem
          ∧ (∀ w ∈ rest, denoteVal c.frame mf w = denoteVal c.frame ms w)
          ∧ cf.reachable = c.reachable ∧ cs.reachable = c.reachable
          ∧ cf.frame = c.frame ∧ cs.frame = c.frame)) := by
  constructor
  · intro f c m v tb rest r1 hInv hs hfind
    obtain ⟨e1, e2⟩ := i32_imm_paths f c m v tb rest r1 hInv hs hfind
    have hr1mem : r1 ∈ c.regalloc.free := List.mem_of_find?_eq_some hfind
    refine ⟨by rw [e1]; rfl, by rw [e2]; rfl, ?_⟩
    intro cf cs mf ms h1 h2
    rw [e1] at h1
    rw [e2] at h2
    simp only [Option.some_inj, Prod.mk.injEq] at h1 h2
    obtain ⟨h1a, h1b⟩ := h1
    obtain ⟨h2a, h2b⟩ := h2
    subst h1a; subst h1b; subst h2a; subst h2b
    refine ⟨rfl, rfl, rfl, ?_, rfl, rfl, by simp [Masm.getReg, lookupReg],
            by simp [Masm.getReg, lookupReg], rfl, rfl, rfl, rfl, ?_, rfl, rfl, rfl, rfl⟩
    · intro x
      constructor
      · intro hx
        rcases List.mem_cons.mp hx with rfl | hx2
        · exact hr1mem
        · exact List.mem_of_mem_erase hx2
      · intro hx
        by_cases hxr : x = r1
        · subst hxr; exact List.mem_cons_self _ _
        · exact List.mem_cons_of_mem _ ((List.mem_erase_of_ne hxr).mpr hx)
    · intro w hw
      cases w with
      | Reg tr =>
        have hmem : tr.reg ∈ stackRegs c.stack := by
          rw [hs, stackRegs_cons_of_not _ _ (by simp [Val.isReg]), stackRegs_cons_reg]
          exact List.mem_cons_of_mem _ (mem_stackRegs_of_mem tr rest hw)
        have hr1ne : ¬(r1 = tr.reg) := fun he => hInv.2.2 tr.reg hmem (he ▸ hr1mem)
        by_cases htb : tb = tr.reg <;>
          simp [denoteVal, Masm.getReg, lookupReg, htb, hr1ne]
      | I32 n => rfl
      | I64 n => rfl
      | F32 n => rfl
      | F64 n => rfl
      | Local lty idx => rfl
      | Memory mty slot => rfl
  · intro f c m v tb rest r1 hInv hs hfind
    obtain ⟨e1, e2⟩ := i64_imm_paths f c m v tb rest r1 hInv hs hfind
    have hr1mem : r1 ∈ c.regalloc.free := List.mem_of_find?_eq_some hfind
    refine ⟨by rw [e1]; rfl, by rw [e2]; rfl, ?_⟩
    intro cf cs mf ms h1 h2
    rw [e1] at h1
    rw [e2] at h2
    simp only [Option.some_inj, Prod.mk.injEq] at h1 h2
    obtain ⟨h1a, h1b⟩ := h1
    obtain ⟨h2a, h2b⟩ := h2
    subst h1a; subst h1b; subst h2a; subst h2b
    refine ⟨rfl, rfl, rfl, ?_, rfl, rfl, by simp [Masm.getReg, lookupReg],
            by simp [Masm.getReg, lookupReg], rfl, rfl, rfl, rfl, ?_, rfl, rfl, rfl, rfl⟩
    · intro x
      constructor
      · intro hx
        rcases List.mem_cons.mp hx with rfl | hx2
        · exact hr1mem
        · exact List.mem_of_mem_erase hx2
      · intro hx
        by_cases hxr : x = r1
        · subst hxr; exact List.mem_cons_self _ _
        · exact List.mem_cons_of_mem _ ((List.mem_erase_of_ne hxr).mpr hx)
    · intro w hw
      cases w with
      | Reg tr =>
        have hmem : tr.reg ∈ stackRegs c.stack := by
          rw [hs, stackRegs_cons_of_not _ _ (by simp [Val.isReg]), stackRegs_cons_reg]
          exact List.mem_cons_of_mem _ (mem_stackRegs_of_mem tr rest hw)
        have hr1ne : ¬(r1 = tr.reg) := fun he => hInv.2.2 tr.reg hmem (he ▸ hr1mem)
        by_cases htb : tb = tr.reg <;>
          simp [denoteVal, Masm.getReg, lookupReg, htb, hr1ne]
      | I32 n => rfl
      | I64 n => rfl
      | F32 n => rfl
      | F64 n => rfl
      | Local lty idx => rfl
      | Memory mty slot => rfl

/-- Witness for C5: adding the constant 4 to a register holding 10. -/
theorem c5_immediate_fast_path_equivalence_witness :
    Inv (CodeGenContext.mk ⟨[Reg.mk .Int 2]⟩
          [Val.I32 4, Val.Reg ⟨.I32, Reg.mk .Int 9⟩] ⟨[]⟩ true)
    ∧ ((CodeGenContext.mk ⟨[Reg.mk .Int 2]⟩
          [Val.I32 4, Val.Reg ⟨.I32, Reg.mk .Int 9⟩] ⟨[]⟩ true).i32binop
          ⟨0, [(Reg.mk .Int 9, 10)], [], [], []⟩
          (arithEmitRI (fun a b => a + b))).isSome = true := by
  constructor
  · decide
  · exact (c5_immediate_fast_path_equivalence.1 (fun a b => a + b)
      (CodeGenContext.mk ⟨[Reg.mk .Int 2]⟩
        [Val.I32 4, Val.Reg ⟨.I32, Reg.mk .Int 9⟩] ⟨[]⟩ true)
      ⟨0, [(Reg.mk .Int 9, 10)], [], [], []⟩ 4 (Reg.mk .Int 9) [] (Reg.mk .Int 2)
      (by decide) rfl (by decide)).1

end Winch
